import Mathlib

/-!
Shallow embedding of the OSv-derived core scheduler (src/core/sched.cc) and
proofs about its specification claims.

Conventions used throughout:
* the per-thread atomic status word becomes the inductive type `Status`;
* a `compare_exchange_strong(expected, desired)` on a single word, executed in
  isolation, becomes a test `s = expected` that on success yields `desired`
  and on failure leaves the word unchanged (and reports the observed value);
* unsigned 64-bit arithmetic becomes `Nat` arithmetic with explicit `% 2 ^ 64`
  where wrap-around matters;
* C++ `float` quantities of the stage balancer become exact rationals `ℚ`;
* intrusive lists become `List` values, bitsets of CPU ids become `Finset ℕ`;
* a failed `assert` aborts the process (spec §7), so functions containing
  asserts return `Option` and an assert failure is `none`.
-/

namespace OsvSched

/-- Thread status word (enum class `thread::status` used by src/core/sched.cc;
the enumerators are the ones listed in the spec's data model table). -/
inductive Status where
  | invalid
  | prestarted
  | unstarted
  | waiting_run
  | waiting_sto
  | sending_lock_run
  | sending_lock_sto
  | waking_run
  | waking_sto
  | stagemig_run
  | stagemig_sto
  | queued
  | running
  | terminating
  | terminated
  deriving DecidableEq, Repr

/-! ## C2: `thread::wake_impl` CAS sequence (sched.cc:1487-1534)

`allowed_initial_states_mask` is an `unsigned` bit mask indexed by status
enumerator; we model it as its decoded membership predicate
`mask : Status → Bool` (the code only ever tests `1 << unsigned(s) & mask`).
Each CAS attempt observes the same status word `s`, unchanged by earlier
failed attempts.  The result is `none` when no CAS succeeded (the function
returns without touching the word) and `some (s', stopped)` when one
succeeded, where `s'` is the new status and `stopped` the boolean the code
derives from which case fired. -/

/-- The CAS cascade of `thread::wake_impl`, in the exact source order:
`waiting_run→waking_run`, `waiting_sto→waking_sto`,
`sending_lock_run→waking_run`, `sending_lock_sto→waking_sto`,
each guarded by the allowed-initial-states mask. -/
def wakeImplCas (mask : Status → Bool) (s : Status) : Option (Status × Bool) :=
  if mask .waiting_run && s = .waiting_run then
    some (.waking_run, false)
  else if mask .waiting_sto && s = .waiting_sto then
    some (.waking_sto, true)
  else if mask .sending_lock_run && s = .sending_lock_run then
    some (.waking_run, false)
  else if mask .sending_lock_sto && s = .sending_lock_sto then
    some (.waking_sto, true)
  else
    none

/-- The four wake sources, as the spec describes them. -/
def isWakeSource (s : Status) : Bool :=
  s = .waiting_run || s = .waiting_sto || s = .sending_lock_run || s = .sending_lock_sto

/-- Whether a wake source carries the `_sto` suffix ("the thread had stopped"). -/
def isStoppedSource (s : Status) : Bool :=
  s = .waiting_sto || s = .sending_lock_sto

/-- The waking state each source transitions to (`_run` sources wake to
`waking_run`, `_sto` sources wake to `waking_sto`). -/
def wakeTarget (s : Status) : Status :=
  if isStoppedSource s then .waking_sto else .waking_run

/-- C2: `thread::wake_impl` attempts CAS transitions exactly on the four wake
sources, each only if allowed by the caller's mask; a success rewrites the
word to `waking_run`/`waking_sto` according to the `_run`/`_sto` suffix of the
observed source and reports `stopped` exactly for the `_sto` sources; if no
CAS succeeds the function returns and the status word is unchanged. -/
theorem wake_impl_cas_characterization (mask : Status → Bool) (s : Status) :
    wakeImplCas mask s =
      if mask s && isWakeSource s then some (wakeTarget s, isStoppedSource s) else none := by
  cases s <;> simp [wakeImplCas, isWakeSource, isStoppedSource, wakeTarget]

/-! ## C7: `thread::unsafe_stop` (sched.cc:1634-1643) -/

/-- `thread::unsafe_stop`: one CAS `waiting_sto → terminated`; on CAS failure
`expected` holds the observed status and the function returns
`expected == terminated`.  Result: (return value, status word afterwards). -/
def unsafeStop (s : Status) : Bool × Status :=
  if s = .waiting_sto then
    (true, .terminated)
  else
    (s = .terminated, s)

/-- C7: `unsafe_stop` returns true iff it observed `waiting_sto` (changed to
`terminated`) or `terminated`; any other observed status yields false and the
status word is unchanged (it is also unchanged in the `terminated` case). -/
theorem unsafe_stop_characterization (s : Status) :
    ((unsafeStop s).1 = true ↔ (s = .waiting_sto ∨ s = .terminated))
    ∧ (s = .waiting_sto → (unsafeStop s).2 = .terminated)
    ∧ (s ≠ .waiting_sto → (unsafeStop s).2 = s) := by
  cases s <;> simp [unsafeStop]

/-- Witness: `unsafe_stop` evaluated through the theorem at the three kinds of
inputs (`waiting_sto`, `terminated`, and an unrelated status). -/
theorem unsafe_stop_characterization_witness :
    (unsafeStop .waiting_sto).2 = .terminated ∧ (unsafeStop .running).2 = .running := by
  exact ⟨(unsafe_stop_characterization .waiting_sto).2.1 rfl,
         (unsafe_stop_characterization .running).2.2 (by decide)⟩

/-! ## C9: `thread::join` on an unstarted thread (sched.cc:1802-1817) -/

/-- Outcome of `thread::join`: returned at once (unstarted fast path),
returned because `destroy()` won the `_joiner` CAS, or blocked in
`wait_until(status == terminated)`. -/
inductive JoinOutcome where
  | immediate
  | lostRace
  | waits
  deriving DecidableEq, Repr

/-- `thread::join`, acting on the thread's status word and `_joiner` slot
(`none` = null).  `cur` is the calling thread.  Returns the outcome together
with the status word and `_joiner` slot after the call. -/
def joinModel (st : Status) (joiner : Option ℕ) (cur : ℕ) :
    JoinOutcome × Status × Option ℕ :=
  if st = .unstarted then
    (.immediate, st, joiner)
  else
    match joiner with
    | none => (.waits, st, some cur)
    | some j => (.lostRace, st, some j)

/-- C9: joining a thread whose status is `unstarted` returns immediately:
it does not block, does not change the status word, and does not write the
`_joiner` slot. -/
theorem join_unstarted_immediate (joiner : Option ℕ) (cur : ℕ) :
    joinModel .unstarted joiner cur = (.immediate, .unstarted, joiner) := by
  simp [joinModel]

/-! ## C10: `timer_base::cancel` (sched.cc:1995-2013)

A timer's mutable state, as far as `cancel` touches it: the `_state` field
and membership in the two intrusive lists (the client's `_active_timers`
list and the owning CPU's `timers._list`). -/

/-- `timer_base::state`. -/
inductive TimerState where
  | free
  | armed
  | expired
  deriving DecidableEq, Repr

/-- The parts of a timer that `timer_base::cancel` reads or writes. -/
structure Timer where
  state : TimerState
  inClientList : Bool
  inCpuList : Bool
  deriving DecidableEq, Repr

/-- `timer_base::cancel`: free timers return untouched; armed timers are
erased from the client's active-timers list and removed from the CPU timer
list; in every non-free case the state becomes `free`. -/
def cancelTimer (t : Timer) : Timer :=
  if t.state = .free then
    t
  else if t.state = .armed then
    { state := .free, inClientList := false, inCpuList := false }
  else
    { t with state := .free }

/-- The list-membership invariant maintained by `set`/`reset`/`expire`/
`cancel`: an armed timer is on both lists; a free or expired timer is on
neither (`timer_base::expire` erases the client list entry and
`timer_list::fired` popped it from the CPU list before calling it). -/
def timerListInvariant (t : Timer) : Prop :=
  (t.state = .armed → t.inClientList = true ∧ t.inCpuList = true)
    ∧ (t.state ≠ .armed → t.inClientList = false ∧ t.inCpuList = false)

instance (t : Timer) : Decidable (timerListInvariant t) := by
  unfold timerListInvariant; infer_instance

/-- C10: for any timer satisfying the list invariant, `cancel` leaves it
`free` and linked into neither list; a second `cancel` (and in general any
`cancel` of a `free` timer) changes nothing. -/
theorem cancel_idempotent (t : Timer) (h : timerListInvariant t) :
    (cancelTimer t).state = .free
    ∧ (cancelTimer t).inClientList = false
    ∧ (cancelTimer t).inCpuList = false
    ∧ cancelTimer (cancelTimer t) = cancelTimer t
    ∧ (t.state = .free → cancelTimer t = t) := by
  obtain ⟨harm, hnot⟩ := h
  cases t with
  | mk st cl cp =>
    cases st
    · obtain ⟨h1, h2⟩ := hnot (by simp)
      subst h1; subst h2
      simp [cancelTimer]
    · simp [cancelTimer]
    · obtain ⟨h1, h2⟩ := hnot (by simp)
      subst h1; subst h2
      simp [cancelTimer]

/-- Witness: `cancel_idempotent` applied to a concrete armed timer (on both
lists, as the invariant requires). -/
theorem cancel_idempotent_witness :
    timerListInvariant ⟨.armed, true, true⟩
    ∧ (cancelTimer ⟨.armed, true, true⟩).state = .free := by
  refine ⟨by decide, (cancel_idempotent ⟨.armed, true, true⟩ (by decide)).1⟩

/-! ## C1: the `running` branch of `cpu::reschedule_from_interrupt`
(sched.cc:308-329)

The state a single CPU's scheduler acts on: the outgoing (current) thread,
the CPU's idle thread, and the run queue (FIFO list of thread ids). -/

/-- Per-CPU scheduler state visible to reschedule_from_interrupt's outgoing
thread handling. -/
structure CpuRunState where
  current : ℕ
  idle : ℕ
  runqueue : List ℕ
  deriving DecidableEq, Repr

/-- sched.cc:308-329, for an outgoing thread whose loaded status is
`running`: `if (p == idle_thread && runqueue.empty()) return;` then
`if (p != idle_thread && runqueue.size() == 1) return;` else the outgoing
thread is stored as `queued` and enqueued at the tail (`runqueue.push_back`).
Returns (kept running?, status of the outgoing thread afterwards, run queue
afterwards). -/
def rescheduleRunningBranch (c : CpuRunState) : Bool × Status × List ℕ :=
  if c.current = c.idle ∧ c.runqueue = [] then
    (true, .running, c.runqueue)
  else if c.current ≠ c.idle ∧ c.runqueue.length = 1 then
    (true, .running, c.runqueue)
  else
    (false, .queued, c.runqueue ++ [c.current])

/-- A nodup list whose members all equal `x` and that contains `x` is `[x]`. -/
theorem list_all_eq_mem_nodup {l : List ℕ} {x : ℕ} (hnd : l.Nodup)
    (hall : ∀ t ∈ l, t = x) (hmem : x ∈ l) : l = [x] := by
  cases l with
  | nil => cases hmem
  | cons a tl =>
    have ha : a = x := hall a (List.mem_cons_self a tl)
    subst ha
    have : tl = [] := by
      cases tl with
      | nil => rfl
      | cons b tl' =>
        have hb : b = a := hall b (by simp)
        subst hb
        exact absurd (by simp : b ∈ b :: tl') (by simpa using (List.nodup_cons.mp hnd).1)
    simp [this]

/-- C1: under the scheduler's location invariants — the idle thread is in the
run queue exactly when it is not the one running, the run queue has no
duplicates, and the outgoing thread is not queued — the outgoing `running`
thread keeps running iff it is the idle thread with an empty run queue, or it
is not the idle thread and is the only non-idle thread on the CPU (every
queued thread is the idle thread); in every other case its status becomes
`queued` and it is appended at the tail of the run queue. -/
theorem reschedule_running_keeps_or_requeues (c : CpuRunState)
    (hidle : c.idle ∈ c.runqueue ↔ c.current ≠ c.idle)
    (hnd : c.runqueue.Nodup) :
    ((rescheduleRunningBranch c).1 = true ↔
        ((c.current = c.idle ∧ c.runqueue = [])
          ∨ (c.current ≠ c.idle ∧ ∀ t ∈ c.runqueue, t = c.idle)))
    ∧ ((rescheduleRunningBranch c).1 = true →
        rescheduleRunningBranch c = (true, .running, c.runqueue))
    ∧ ((rescheduleRunningBranch c).1 = false →
        rescheduleRunningBranch c = (false, .queued, c.runqueue ++ [c.current])) := by
  by_cases hci : c.current = c.idle
  · have hnotmem : c.idle ∉ c.runqueue := fun h => (hidle.mp h) hci
    refine ⟨?_, ?_, ?_⟩
    · constructor
      · intro h
        by_cases hq : c.runqueue = []
        · exact Or.inl ⟨hci, hq⟩
        · exfalso
          have : rescheduleRunningBranch c = (false, .queued, c.runqueue ++ [c.current]) := by
            simp [rescheduleRunningBranch, hci, hq]
          rw [this] at h
          simp at h
      · rintro (⟨_, hq⟩ | ⟨hne, _⟩)
        · simp [rescheduleRunningBranch, hci, hq]
        · exact absurd hci hne
    · intro h
      by_cases hq : c.runqueue = []
      · simp [rescheduleRunningBranch, hci, hq]
      · exfalso
        have : rescheduleRunningBranch c = (false, .queued, c.runqueue ++ [c.current]) := by
          simp [rescheduleRunningBranch, hci, hq]
        rw [this] at h
        simp at h
    · intro h
      by_cases hq : c.runqueue = []
      · have : rescheduleRunningBranch c = (true, .running, c.runqueue) := by
          simp [rescheduleRunningBranch, hci, hq]
        rw [this] at h
        simp at h
      · simp [rescheduleRunningBranch, hci, hq]
  · have hmem : c.idle ∈ c.runqueue := hidle.mpr hci
    have hlen : c.runqueue.length = 1 ↔ ∀ t ∈ c.runqueue, t = c.idle := by
      constructor
      · intro h1 t ht
        obtain ⟨a, ha⟩ := List.length_eq_one.mp h1
        rw [ha] at ht hmem
        simp at ht hmem
        rw [ht, hmem]
      · intro hall
        rw [list_all_eq_mem_nodup hnd hall hmem]
        rfl
    refine ⟨?_, ?_, ?_⟩
    · constructor
      · intro h
        by_cases h1 : c.runqueue.length = 1
        · exact Or.inr ⟨hci, hlen.mp h1⟩
        · exfalso
          have : rescheduleRunningBranch c = (false, .queued, c.runqueue ++ [c.current]) := by
            simp [rescheduleRunningBranch, hci, h1]
          rw [this] at h
          simp at h
      · rintro (⟨heq, _⟩ | ⟨_, hall⟩)
        · exact absurd heq hci
        · simp [rescheduleRunningBranch, hci, hlen.mpr hall]
    · intro h
      by_cases h1 : c.runqueue.length = 1
      · simp [rescheduleRunningBranch, hci, h1]
      · exfalso
        have : rescheduleRunningBranch c = (false, .queued, c.runqueue ++ [c.current]) := by
          simp [rescheduleRunningBranch, hci, h1]
        rw [this] at h
        simp at h
    · intro h
      by_cases h1 : c.runqueue.length = 1
      · have : rescheduleRunningBranch c = (true, .running, c.runqueue) := by
          simp [rescheduleRunningBranch, hci, h1]
        rw [this] at h
        simp at h
      · simp [rescheduleRunningBranch, hci, h1]

/-- Witness: `reschedule_running_keeps_or_requeues` applied to a concrete
state (thread 1 running, idle thread 0 queued alongside thread 2): the
outgoing thread is requeued at the tail. -/
theorem reschedule_running_keeps_or_requeues_witness :
    rescheduleRunningBranch ⟨1, 0, [0, 2]⟩ = (false, .queued, [0, 2, 1]) := by
  exact (reschedule_running_keeps_or_requeues ⟨1, 0, [0, 2]⟩ (by decide) (by decide)).2.2
    (by decide)

/-! ## C5: `thread::yield` and the idle-priority check (sched.cc:1102-1132) -/

/-- Modelled from the spec: the thread priority constants live in the header
`osv/sched.hh`, which is not part of this source tree.  The spec (§1
non-goals) says priorities "collapse to a single default plus an `idle`
sentinel", i.e. `priority_default` and `priority_idle` are two distinct
constant values. -/
inductive Priority where
  | pdefault
  | pidle
  deriving DecidableEq, Repr

/-- `thread::priority()` (sched.cc:1129-1132): returns `priority_default`
unconditionally, for every thread (`set_priority` is a no-op). -/
def threadPriority (_t : ℕ) : Priority := .pdefault

/-- `thread::yield` after `handle_incoming_wakeups` (sched.cc:1110-1121):
return if the run queue is empty; return if the head of the run queue has
idle priority (`tnext.priority() == thread::priority_idle`); otherwise invoke
`reschedule_from_interrupt`, whose outgoing-thread status is `running` (the
assert on line 1113).  Returns (calling thread still running?, status of the
calling thread afterwards, run queue afterwards). -/
def yieldModel (c : CpuRunState) : Bool × Status × List ℕ :=
  match c.runqueue with
  | [] => (true, .running, c.runqueue)
  | tnext :: _ =>
    if threadPriority tnext = .pidle then
      (true, .running, c.runqueue)
    else
      rescheduleRunningBranch c

/-- C5 failing input (code bug): thread 1 calls `yield` while the idle thread
0 heads the run queue `[0, 2]`.  The claim (and the comment at sched.cc:1114)
says yield must refuse to switch, but `thread::priority()` returns
`priority_default` for every thread — including the idle thread — so the
idle-priority check never fires and the scheduler enqueues the caller and
switches to the idle thread: the caller's status becomes `queued` and the run
queue changes to `[0, 2, 1]`. -/
theorem yield_idle_head_still_switches :
    (yieldModel ⟨1, 0, [0, 2]⟩ = (false, .queued, [0, 2, 1]))
    ∧ threadPriority 0 ≠ .pidle := by
  constructor
  · rfl
  · decide

/-! ## C6: the cputime estimator (sched.cc:227-269)

`cputime_shift = 10`.  `_cputime_estimator` is a single `u64` packing the low
32 bits of `running_since >> 10` and of `_total_cpu_time >> 10`.  All values
are `u64` nanosecond counts, modelled as `ℕ` with explicit `% 2 ^ 64` where
the code can wrap.  Bit operations on disjoint ranges are written
arithmetically: `x >> k` is `x / 2 ^ k`, `(u32)x` is `x % 2 ^ 32`,
`rs | ((u64)tc << 32)` with `rs < 2 ^ 32` is `rs + tc * 2 ^ 32`,
`ref & ho` (the high 22 bits) is `ref / 2 ^ 42 * 2 ^ 42` and `ref & ~ho` is
`ref % 2 ^ 42`; the `u64` subtraction `rs_ho -= 1 << 42` wraps mod `2 ^ 64`. -/

/-- `thread::cputime_estimator_set` (sched.cc:228-235). -/
def cputimeEstimatorSet (runningSince totalCpuTime : ℕ) : ℕ :=
  let rs := runningSince / 2 ^ 10 % 2 ^ 32
  let tc := totalCpuTime / 2 ^ 10 % 2 ^ 32
  rs + tc * 2 ^ 32

/-- `thread::cputime_estimator_get` (sched.cc:236-269), with the reader's
reference values (current uptime `rsRef` and current `_total_cpu_time`
`tcRef`) passed explicitly. -/
def cputimeEstimatorGet (e rsRef tcRef : ℕ) : ℕ × ℕ :=
  let rs := e % 2 ^ 32 * 2 ^ 10
  let tc := e / 2 ^ 32 * 2 ^ 10
  let rsHo := rsRef / 2 ^ 42 * 2 ^ 42
  let tcHo := tcRef / 2 ^ 42 * 2 ^ 42
  let rsHo' := if rsRef % 2 ^ 42 < rs then (rsHo + (2 ^ 64 - 2 ^ 42)) % 2 ^ 64 else rsHo
  let tcHo' := if tcRef % 2 ^ 42 < tc then (tcHo + (2 ^ 64 - 2 ^ 42)) % 2 ^ 64 else tcHo
  (rsHo' + rs, tcHo' + tc)

/-- Reconstruction of one saved value from its low 32 bits (shifted by 10)
and a reference that is at least the saved value and less than `2 ^ 41` ahead
of it. -/
theorem cputime_reconstruct_one (v r : ℕ) (hvr : v ≤ r) (hlt : r < v + 2 ^ 41)
    (hr : r < 2 ^ 64) :
    (if r % 2 ^ 42 < v / 2 ^ 10 % 2 ^ 32 * 2 ^ 10 then
        (r / 2 ^ 42 * 2 ^ 42 + (2 ^ 64 - 2 ^ 42)) % 2 ^ 64
      else r / 2 ^ 42 * 2 ^ 42) + v / 2 ^ 10 % 2 ^ 32 * 2 ^ 10
    = v / 2 ^ 10 * 2 ^ 10 := by
  split_ifs with hcase <;> omega

/-- C6: a `cputime_estimator_get` whose reference values are each at least
the corresponding stored value and less than `2 ^ 41` ns ahead of it returns
exactly the stored `running_since` and `total_cpu_time` with their low 10
bits cleared — including when the reference's high 22 bits carried past the
stored value's. -/
theorem cputime_estimator_roundtrip (v w r s : ℕ)
    (hvr : v ≤ r) (hrlt : r < v + 2 ^ 41) (hr : r < 2 ^ 64)
    (hws : w ≤ s) (hslt : s < w + 2 ^ 41) (hs : s < 2 ^ 64) :
    cputimeEstimatorGet (cputimeEstimatorSet v w) r s
      = (v / 2 ^ 10 * 2 ^ 10, w / 2 ^ 10 * 2 ^ 10) := by
  have hv64 : v < 2 ^ 64 := lt_of_le_of_lt hvr hr
  have hw64 : w < 2 ^ 64 := lt_of_le_of_lt hws hs
  have hunpack_lo : cputimeEstimatorSet v w % 2 ^ 32 = v / 2 ^ 10 % 2 ^ 32 := by
    show (v / 2 ^ 10 % 2 ^ 32 + w / 2 ^ 10 % 2 ^ 32 * 2 ^ 32) % 2 ^ 32 = v / 2 ^ 10 % 2 ^ 32
    omega
  have hunpack_hi : cputimeEstimatorSet v w / 2 ^ 32 = w / 2 ^ 10 % 2 ^ 32 := by
    show (v / 2 ^ 10 % 2 ^ 32 + w / 2 ^ 10 % 2 ^ 32 * 2 ^ 32) / 2 ^ 32 = w / 2 ^ 10 % 2 ^ 32
    omega
  unfold cputimeEstimatorGet
  rw [hunpack_lo, hunpack_hi]
  rw [Prod.mk.injEq]
  exact ⟨cputime_reconstruct_one v r hvr hrlt hr,
         cputime_reconstruct_one w s hws hslt hs⟩

/-- Witness: the round-trip theorem at concrete values, one of which crosses
a `2 ^ 42` carry boundary between save and read (`v` just below the boundary,
`r` just above it). -/
theorem cputime_estimator_roundtrip_witness :
    (2 ^ 42 - 5000 : ℕ) ≤ 2 ^ 42 + 3000
    ∧ cputimeEstimatorGet (cputimeEstimatorSet (2 ^ 42 - 5000) 12345678)
        (2 ^ 42 + 3000) 12345679
      = ((2 ^ 42 - 5000) / 2 ^ 10 * 2 ^ 10, 12345678 / 2 ^ 10 * 2 ^ 10) := by
  refine ⟨by norm_num, ?_⟩
  exact cputime_estimator_roundtrip (2 ^ 42 - 5000) 12345678 (2 ^ 42 + 3000) 12345679
    (by norm_num) (by norm_num) (by norm_num) (by norm_num) (by norm_num) (by norm_num)

/-! ## C8: `stage::define` (sched.cc:791-820) and the `assignment`
constructor (sched.cc:513-524)

`bitset_cpu_set` becomes `Finset ℕ` (the set of CPU ids); the per-stage
arrays become functions from stage index, with indices `≥ stages` unused. -/

/-- `class assignment`: stored requirements, CPU set per stage, and the
fixed CPU and stage counts. -/
structure Assignment where
  reqs : ℕ → ℤ
  cpusPerStage : ℕ → Finset ℕ
  cpus : ℕ
  stages : ℕ

/-- The constructor loop `for (c = 0; c < cpus; c++) { reqs[c%stages] += 1;
cpus_per_stage[c%stages].set(c); }`, after the zero-fill: state after the
first `c` iterations. -/
def assignmentFill (stages : ℕ) : ℕ → ((ℕ → ℤ) × (ℕ → Finset ℕ))
  | 0 => (fun _ => 0, fun _ => ∅)
  | c + 1 =>
    let p := assignmentFill stages c
    (Function.update p.1 (c % stages) (p.1 (c % stages) + 1),
     Function.update p.2 (c % stages) (insert c (p.2 (c % stages))))

/-- `assignment::validate_reqs` (sched.cc:534-541): every requirement is
nonnegative and they sum to the CPU count. -/
def validReqs (stages cpus : ℕ) (reqs : ℕ → ℤ) : Prop :=
  (∀ si < stages, 0 ≤ reqs si) ∧ ∑ si in Finset.range stages, reqs si = cpus

instance (stages cpus : ℕ) (reqs : ℕ → ℤ) : Decidable (validReqs stages cpus reqs) := by
  unfold validReqs; infer_instance

/-- The `assignment(int cpus, int stages)` constructor (sched.cc:513-524):
asserts `stages <= cpus`, distributes CPUs round-robin, then runs
`validate_reqs`.  `none` models an assert failure (process abort). -/
def assignmentInit (cpus stages : ℕ) : Option Assignment :=
  if stages ≤ cpus then
    let p := assignmentFill stages cpus
    if validReqs stages cpus p.1 then
      some ⟨p.1, p.2, cpus, stages⟩
    else
      none
  else
    none

/-- The `stage` globals `stage::define` reads and writes: `stages_next` and
the published `_assignment`. -/
structure StageGlobals where
  stagesNext : ℕ
  assignment : Assignment

/-- `stage::define` (sched.cc:791-820): under the stages mutex, return a
null handle if `stages_next == max_stages`; otherwise take slot
`stages_next` as the new stage's id, increment `stages_next`, and publish a
fresh `assignment(cpus.size(), stages_next)` (disposing the old one via
RCU).  Returns `none` on assert failure inside the `assignment` constructor,
otherwise `some (handle, new globals)` where `handle = none` models the null
handle. -/
def stageDefine (maxStages ncpus : ℕ) (g : StageGlobals) :
    Option (Option ℕ × StageGlobals) :=
  if g.stagesNext = maxStages then
    some (none, g)
  else
    match assignmentInit ncpus (g.stagesNext + 1) with
    | some a => some (some g.stagesNext, ⟨g.stagesNext + 1, a⟩)
    | none => none

theorem assignmentFill_nonneg (stages c si : ℕ) :
    0 ≤ (assignmentFill stages c).1 si := by
  induction c with
  | zero => simp [assignmentFill]
  | succ c ih =>
    simp only [assignmentFill]
    by_cases h : si = c % stages
    · subst h; simp only [Function.update_same]; linarith [ih]
    · rw [Function.update_noteq h]; exact ih

theorem assignmentFill_sum (stages c : ℕ) (hs : 0 < stages) :
    ∑ si in Finset.range stages, (assignmentFill stages c).1 si = c := by
  induction c with
  | zero => simp [assignmentFill]
  | succ c ih =>
    simp only [assignmentFill]
    have hmem : c % stages ∈ Finset.range stages :=
      Finset.mem_range.mpr (Nat.mod_lt c hs)
    rw [Finset.sum_update_of_mem hmem, ← Finset.erase_eq]
    rw [← Finset.add_sum_erase _ _ hmem] at ih
    push_cast
    omega

/-- The `assignment` constructor succeeds whenever `1 ≤ stages ≤ cpus`
(its two asserts pass), yielding the round-robin fill. -/
theorem assignmentInit_succeeds (cpus stages : ℕ) (h1 : 0 < stages)
    (h2 : stages ≤ cpus) :
    assignmentInit cpus stages =
      some ⟨(assignmentFill stages cpus).1, (assignmentFill stages cpus).2,
            cpus, stages⟩ := by
  unfold assignmentInit
  rw [if_pos h2, if_pos]
  exact ⟨fun si _ => assignmentFill_nonneg stages cpus si,
         assignmentFill_sum stages cpus h1⟩

/-- C8 counterexample: on a machine with 1 CPU, after one stage has been
defined (`stages_next = 1`, far below `max_stages = 8`), the claim says
`define` must return a handle to stage 1 and publish a new assignment; but
`assignment(cpus=1, stages=2)` fails its `assert(stages <= cpus)` and the
process aborts (`none`), so no handle is returned. -/
theorem stage_define_aborts_when_stages_exceed_cpus :
    stageDefine 8 1 ⟨1, ⟨(assignmentFill 1 1).1, (assignmentFill 1 1).2, 1, 1⟩⟩ = none
    ∧ (1 : ℕ) ≠ 8
    ∧ assignmentInit 1 1 =
        some ⟨(assignmentFill 1 1).1, (assignmentFill 1 1).2, 1, 1⟩ := by
  refine ⟨rfl, by decide, assignmentInit_succeeds 1 1 (by decide) (by decide)⟩

/-- C8 (amended): provided the incremented stage count does not exceed the
number of CPUs, `stage::define` returns a null handle iff `max_stages` stages
have already been defined; otherwise it returns a handle whose id is the
number of previously defined stages, increments the stage count, and
publishes a fresh assignment built over the new stage count and the machine's
CPUs. -/
theorem stage_define_amended (maxStages ncpus : ℕ) (g : StageGlobals) :
    (g.stagesNext = maxStages → stageDefine maxStages ncpus g = some (none, g))
    ∧ (g.stagesNext ≠ maxStages → g.stagesNext + 1 ≤ ncpus →
        ∃ a, assignmentInit ncpus (g.stagesNext + 1) = some a
          ∧ a.stages = g.stagesNext + 1 ∧ a.cpus = ncpus
          ∧ stageDefine maxStages ncpus g
              = some (some g.stagesNext, ⟨g.stagesNext + 1, a⟩)) := by
  constructor
  · intro h
    simp [stageDefine, h]
  · intro hne hcpus
    refine ⟨_, assignmentInit_succeeds ncpus (g.stagesNext + 1) (Nat.succ_pos _) hcpus,
            rfl, rfl, ?_⟩
    simp only [stageDefine, if_neg hne,
      assignmentInit_succeeds ncpus (g.stagesNext + 1) (Nat.succ_pos _) hcpus]

/-- Witness: `stage_define_amended` at a concrete state — 4 CPUs, one stage
already defined, `max_stages = 8` — yields a handle to stage 1 and bumps the
stage count to 2. -/
theorem stage_define_amended_witness :
    (1 : ℕ) ≠ 8 ∧ 1 + 1 ≤ 4
    ∧ ∃ a, assignmentInit 4 (1 + 1) = some a ∧ a.stages = 1 + 1 ∧ a.cpus = 4
        ∧ stageDefine 8 4 ⟨1, ⟨(assignmentFill 1 4).1, (assignmentFill 1 4).2, 4, 1⟩⟩
            = some (some 1, ⟨1 + 1, a⟩) := by
  refine ⟨by decide, by decide, ?_⟩
  exact (stage_define_amended 8 4
    ⟨1, ⟨(assignmentFill 1 4).1, (assignmentFill 1 4).2, 4, 1⟩⟩).2 (by decide) (by decide)

/-! ## C4: `assignment::transition_to` (sched.cc:548-584) and
`assignment::transfer_cpus` (sched.cc:587-599) -/

/-- The body of `transfer_cpus`' range-for over the source bitset
(sched.cc:591-597): visit the source set's members in increasing CPU-id
order (`l`); stop early when `amount` hits 0; `to_set.test_and_set(f)`
returns whether the bit was already set, and when it was not the member is
moved (`from_set.reset(f)`); `amount` is decremented for every visited
member.  Returns the two sets and the remaining amount. -/
def transferGo : List ℕ → Finset ℕ → Finset ℕ → ℕ → (Finset ℕ × Finset ℕ × ℕ)
  | [], f, t, a => (f, t, a)
  | x :: xs, f, t, a =>
    if a = 0 then
      (f, t, a)
    else if x ∈ t then
      transferGo xs f t (a - 1)
    else
      transferGo xs (f.erase x) (insert x t) (a - 1)

/-- `assignment::transfer_cpus` (sched.cc:587-599): walk the source set,
then `assert(amount == 0)` (`none` on failure). -/
def transferCpus (f t : Finset ℕ) (amount : ℕ) : Option (Finset ℕ × Finset ℕ) :=
  let r := transferGo (f.sort (· ≤ ·)) f t amount
  if r.2.2 = 0 then some (r.1, r.2.1) else none

theorem transferGo_spec (l : List ℕ) :
    ∀ (f t : Finset ℕ) (a : ℕ), l.Nodup → (∀ x ∈ l, x ∈ f) → (∀ x ∈ l, x ∉ t) →
      a ≤ l.length →
      ∃ m : Finset ℕ, (∀ x ∈ m, x ∈ l) ∧ m ⊆ f ∧ m.card = a
        ∧ transferGo l f t a = (f \ m, t ∪ m, 0) := by
  induction l with
  | nil =>
    intro f t a _ _ _ ha
    have ha0 : a = 0 := Nat.le_zero.mp (by simpa using ha)
    subst ha0
    refine ⟨∅, by simp, by simp, by simp, ?_⟩
    simp [transferGo]
  | cons x xs ih =>
    intro f t a hnd hmemf hmemt ha
    rcases Nat.eq_zero_or_pos a with rfl | hapos
    · exact ⟨∅, by simp, by simp, by simp, by simp [transferGo]⟩
    · have hxf : x ∈ f := hmemf x (by simp)
      have hxt : x ∉ t := hmemt x (by simp)
      obtain ⟨hxxs, hndxs⟩ := List.nodup_cons.mp hnd
      obtain ⟨m', hm'l, hm'sub, hm'card, hm'go⟩ :=
        ih (f.erase x) (insert x t) (a - 1) hndxs
          (fun y hy => Finset.mem_erase.mpr ⟨fun hyx => hxxs (hyx ▸ hy), hmemf y (by simp [hy])⟩)
          (fun y hy => by
            simp only [Finset.mem_insert, not_or]
            exact ⟨fun hyx => hxxs (hyx ▸ hy), hmemt y (by simp [hy])⟩)
          (by simp at ha; omega)
      have hxm' : x ∉ m' := fun hx => by
        have := hm'sub hx
        simp [Finset.mem_erase] at this
      refine ⟨insert x m', ?_, ?_, ?_, ?_⟩
      · intro y hy
        rcases Finset.mem_insert.mp hy with rfl | hy'
        · simp
        · simp [hm'l y hy']
      · intro y hy
        rcases Finset.mem_insert.mp hy with rfl | hy'
        · exact hxf
        · exact Finset.mem_of_mem_erase (hm'sub hy')
      · rw [Finset.card_insert_of_not_mem hxm']
        omega
      · have hstep : transferGo (x :: xs) f t a
            = transferGo xs (f.erase x) (insert x t) (a - 1) := by
          simp only [transferGo, if_neg (Nat.pos_iff_ne_zero.mp hapos), if_neg hxt]
        rw [hstep, hm'go]
        have h1 : f.erase x \ m' = f \ insert x m' := by
          rw [Finset.erase_eq, sdiff_sdiff_left, Finset.insert_eq]
          rfl
        have h2 : insert x t ∪ m' = t ∪ insert x m' := by
          rw [Finset.insert_union, Finset.union_insert]
        rw [h1, h2]

/-- `transfer_cpus` from a source set disjoint from the target set and large
enough for the requested amount: its assert passes and it moves exactly
`amount` members of the source set into the target set. -/
theorem transferCpus_spec (f t : Finset ℕ) (a : ℕ) (hd : Disjoint f t)
    (ha : a ≤ f.card) :
    ∃ m : Finset ℕ, m ⊆ f ∧ m.card = a
      ∧ transferCpus f t a = some (f \ m, t ∪ m) := by
  obtain ⟨m, _, hmsub, hmcard, hgo⟩ :=
    transferGo_spec (f.sort (· ≤ ·)) f t a (Finset.sort_nodup _ f)
      (fun x hx => (Finset.mem_sort _).mp hx)
      (fun x hx => Finset.disjoint_left.mp hd ((Finset.mem_sort _).mp hx))
      (by rwa [Finset.length_sort])
  exact ⟨m, hmsub, hmcard, by simp [transferCpus, hgo]⟩


/-- The mutable state of `transition_to`'s pairing loops: the remaining
`req_delta` array and the per-stage CPU sets being rewritten in place. -/
structure TransitionState where
  delta : ℕ → ℤ
  sets : ℕ → Finset ℕ

/-- The inner loop `for (int isi = si; isi < stages; isi++)`
(sched.cc:564-580): for each pair of stages with opposing-sign deltas,
transfer `min(|delta[isi]|, |delta[si]|)` CPUs from the negative-delta stage
to the positive-delta stage, updating both deltas; the post-transfer sign
asserts (sched.cc:571-572, 577-578) are modelled as checks. -/
def transInner (si : ℕ) (s : TransitionState) : List ℕ → Option TransitionState
  | [] => some s
  | isi :: rest =>
    let txc := min (s.delta isi).natAbs (s.delta si).natAbs
    if s.delta isi < 0 ∧ 0 < s.delta si then
      match transferCpus (s.sets isi) (s.sets si) txc with
      | none => none
      | some (fs, ts) =>
        if s.delta isi + txc ≤ 0 ∧ 0 ≤ s.delta si - txc then
          transInner si
            ⟨Function.update (Function.update s.delta si (s.delta si - txc)) isi
               (s.delta isi + txc),
             Function.update (Function.update s.sets si ts) isi fs⟩ rest
        else none
    else if 0 < s.delta isi ∧ s.delta si < 0 then
      match transferCpus (s.sets si) (s.sets isi) txc with
      | none => none
      | some (fs, ts) =>
        if 0 ≤ s.delta isi - txc ∧ s.delta si + txc ≤ 0 then
          transInner si
            ⟨Function.update (Function.update s.delta si (s.delta si + txc)) isi
               (s.delta isi - txc),
             Function.update (Function.update s.sets si fs) isi ts⟩ rest
        else none
    else
      transInner si s rest

/-- The outer loop `for (int si = 0; si < stages; si++)` (sched.cc:562-582):
skip stages whose delta is already 0 (`continue`), otherwise run the inner
pairing loop over `isi ∈ [si, stages)` and then `assert(req_delta[si] == 0)`
(modelled as a check). -/
def transOuter (stages : ℕ) (s : TransitionState) : List ℕ → Option TransitionState
  | [] => some s
  | si :: rest =>
    if s.delta si = 0 then
      transOuter stages s rest
    else
      match transInner si s (List.range' si (stages - si)) with
      | none => none
      | some s' =>
        if s'.delta si = 0 then transOuter stages s' rest else none

/-- `assignment::transition_to` (sched.cc:548-584): `validate_reqs(new_reqs)`,
compute `req_delta` and `assert(delta_total == 0)`, run the pairing loops,
and store the new requirements. -/
def transitionTo (a : Assignment) (newReqs : ℕ → ℤ) : Option Assignment :=
  if validReqs a.stages a.cpus newReqs then
    if ∑ si in Finset.range a.stages, (newReqs si - a.reqs si) = 0 then
      match transOuter a.stages ⟨fun si => newReqs si - a.reqs si, a.cpusPerStage⟩
          (List.range a.stages) with
      | none => none
      | some s' => some ⟨newReqs, s'.sets, a.cpus, a.stages⟩
    else
      none
  else
    none

/-- Loop invariant of `transition_to`'s pairing loops, relative to the
starting assignment `A` and the requested requirements `newReqs`:
set sizes track `newReqs - delta`; the sets stay pairwise disjoint; each
delta shrinks monotonically toward 0 from its initial value
`newReqs - A.reqs` without changing sign, receivers only gaining CPUs and
givers only losing them; and the deltas sum to 0. -/
def TransInv (stages : ℕ) (A : Assignment) (newReqs : ℕ → ℤ)
    (s : TransitionState) : Prop :=
  (∀ i < stages, ((s.sets i).card : ℤ) = newReqs i - s.delta i)
  ∧ (∀ i < stages, ∀ j < stages, i ≠ j → Disjoint (s.sets i) (s.sets j))
  ∧ (∀ i < stages, 0 ≤ newReqs i - A.reqs i →
      0 ≤ s.delta i ∧ s.delta i ≤ newReqs i - A.reqs i ∧ A.cpusPerStage i ⊆ s.sets i)
  ∧ (∀ i < stages, newReqs i - A.reqs i ≤ 0 →
      s.delta i ≤ 0 ∧ newReqs i - A.reqs i ≤ s.delta i ∧ s.sets i ⊆ A.cpusPerStage i)
  ∧ (∑ i in Finset.range stages, s.delta i = 0)

/-- Summing a function updated at two distinct in-range points. -/
theorem sum_update_two {β : Type} [CommRing β] (d : ℕ → β) (n i j : ℕ)
    (hi : i < n) (hj : j < n) (hij : i ≠ j) (vi vj : β) :
    ∑ k in Finset.range n, Function.update (Function.update d j vj) i vi k
      = (∑ k in Finset.range n, d k) + vi + vj - d i - d j := by
  have hmi : i ∈ Finset.range n := Finset.mem_range.mpr hi
  have hmj : j ∈ Finset.range n := Finset.mem_range.mpr hj
  rw [Finset.sum_update_of_mem hmi, ← Finset.erase_eq,
    Finset.sum_update_of_mem (Finset.mem_erase.mpr ⟨Ne.symm hij, hmj⟩), ← Finset.erase_eq]
  have h1 : ∑ k in (Finset.range n).erase i, d k
      = (∑ k in Finset.range n, d k) - d i := by
    rw [← Finset.add_sum_erase _ _ hmi]; ring
  have h2 : ∑ k in ((Finset.range n).erase i).erase j, d k
      = (∑ k in (Finset.range n).erase i, d k) - d j := by
    rw [← Finset.add_sum_erase _ _ (Finset.mem_erase.mpr ⟨Ne.symm hij, hmj⟩)]; ring
  rw [h2, h1]; ring

/-- Moving a subset `m` of stage `a`'s CPUs into stage `b`'s set preserves
pairwise disjointness. -/
theorem pairwise_disjoint_move {sets G : ℕ → Finset ℕ} {stages a b : ℕ}
    {m : Finset ℕ}
    (hI2 : ∀ i < stages, ∀ j < stages, i ≠ j → Disjoint (sets i) (sets j))
    (ha : a < stages) (hb : b < stages) (hne : a ≠ b) (hm : m ⊆ sets a)
    (hGa : G a = sets a \ m) (hGb : G b = sets b ∪ m)
    (hGk : ∀ k, k ≠ a → k ≠ b → G k = sets k) :
    ∀ i < stages, ∀ j < stages, i ≠ j → Disjoint (G i) (G j) := by
  have key : ∀ i < stages, ∀ j < stages, i ≠ j → j ≠ a → Disjoint (G i) (G j) := by
    intro i hi j hj hij hja
    by_cases hia : i = a
    · subst hia
      rw [hGa]
      by_cases hjb : j = b
      · subst hjb
        rw [hGb]
        exact Finset.disjoint_union_right.mpr
          ⟨(hI2 i hi j hj hij).mono_left (Finset.sdiff_subset),
           Finset.sdiff_disjoint⟩
      · rw [hGk j hja hjb]
        exact (hI2 i hi j hj hij).mono_left (Finset.sdiff_subset)
    · by_cases hib : i = b
      · rw [hib, hGb]
        by_cases hjb : j = b
        · exact absurd (hib.trans hjb.symm) hij
        · rw [hGk j hja hjb]
          exact Finset.disjoint_union_left.mpr
            ⟨hI2 b hb j hj (fun h => hjb h.symm),
             (hI2 a ha j hj (fun h => hja h.symm)).mono_left hm⟩
      · rw [hGk i hia hib]
        by_cases hjb : j = b
        · subst hjb
          rw [hGb]
          exact Finset.disjoint_union_right.mpr
            ⟨hI2 i hi j hj hij, (hI2 i hi a ha hia).mono_right hm⟩
        · rw [hGk j hja hjb]
          exact hI2 i hi j hj hij
  intro i hi j hj hij
  by_cases hja : j = a
  · subst hja
    exact (key j hj i hi (Ne.symm hij) hij).symm
  · exact key i hi j hj hij hja

/-- One opposing-sign transfer step preserves the loop invariant: `a` is the
giving stage (`delta a < 0`), `b` the receiving one (`0 < delta b`), `txc`
the transferred amount `min(|delta a|, |delta b|)`, and `m` the moved CPUs. -/
theorem move_preserves_inv {stages : ℕ} {A : Assignment} {newReqs : ℕ → ℤ}
    {s : TransitionState} (hinv : TransInv stages A newReqs s)
    {a b : ℕ} (ha : a < stages) (hb : b < stages)
    (hda : s.delta a < 0) (hdb : 0 < s.delta b)
    {txc : ℕ} (htxc : txc = min (s.delta a).natAbs (s.delta b).natAbs)
    {m : Finset ℕ} (hm : m ⊆ s.sets a) (hmcard : m.card = txc)
    {d1 : ℕ → ℤ} {sets1 : ℕ → Finset ℕ}
    (hd1a : d1 a = s.delta a + txc) (hd1b : d1 b = s.delta b - txc)
    (hd1k : ∀ k, k ≠ a → k ≠ b → d1 k = s.delta k)
    (hs1a : sets1 a = s.sets a \ m) (hs1b : sets1 b = s.sets b ∪ m)
    (hs1k : ∀ k, k ≠ a → k ≠ b → sets1 k = s.sets k) :
    TransInv stages A newReqs ⟨d1, sets1⟩ := by
  obtain ⟨I1, I2, I3, I4, I5⟩ := hinv
  have hab : a ≠ b := fun h => by rw [h] at hda; omega
  have hdelta0a : newReqs a - A.reqs a ≤ 0 := by
    by_contra h
    push_neg at h
    have := (I3 a ha (le_of_lt h)).1
    omega
  have hdelta0b : 0 ≤ newReqs b - A.reqs b := by
    by_contra h
    push_neg at h
    have := (I4 b hb (le_of_lt h)).1
    omega
  obtain ⟨hda0, hdalo, hsuba⟩ := I4 a ha hdelta0a
  obtain ⟨hdb0, hdbhi, hsubb⟩ := I3 b hb hdelta0b
  have hdisjab : Disjoint (s.sets a) (s.sets b) := I2 a ha b hb hab
  have hmb : Disjoint (s.sets b) m := (hdisjab.mono_left hm).symm
  refine ⟨?_, ?_, ?_, ?_, ?_⟩
  · intro i hi
    dsimp only
    by_cases hia : i = a
    · subst hia
      rw [hs1a, hd1a]
      rw [Finset.card_sdiff hm, Nat.cast_sub (Finset.card_le_card hm)]
      have := I1 i hi
      omega
    · by_cases hib : i = b
      · subst hib
        rw [hs1b, hd1b, Finset.card_union_of_disjoint hmb]
        push_cast
        have := I1 i hi
        omega
      · rw [hs1k i hia hib, hd1k i hia hib]
        exact I1 i hi
  · exact pairwise_disjoint_move I2 ha hb hab hm hs1a hs1b hs1k
  · intro i hi h0
    dsimp only
    by_cases hia : i = a
    · subst hia
      omega
    · by_cases hib : i = b
      · subst hib
        rw [hd1b, hs1b]
        have htb : (txc : ℤ) ≤ s.delta i := by omega
        exact ⟨by omega, by omega, hsubb.trans (Finset.subset_union_left)⟩
      · rw [hd1k i hia hib, hs1k i hia hib]
        exact I3 i hi h0
  · intro i hi h0
    dsimp only
    by_cases hia : i = a
    · subst hia
      rw [hd1a, hs1a]
      have hta : (txc : ℤ) ≤ -s.delta i := by omega
      exact ⟨by omega, by omega, (Finset.sdiff_subset).trans hsuba⟩
    · by_cases hib : i = b
      · subst hib
        omega
      · rw [hd1k i hia hib, hs1k i hia hib]
        exact I4 i hi h0
  · dsimp only
    have hpt : ∀ k ∈ Finset.range stages, d1 k
        = Function.update (Function.update s.delta b (s.delta b - txc)) a
            (s.delta a + txc) k := by
      intro k _
      by_cases hka : k = a
      · subst hka
        rw [Function.update_same, hd1a]
      · rw [Function.update_noteq hka]
        by_cases hkb : k = b
        · subst hkb
          rw [Function.update_same, hd1b]
        · rw [Function.update_noteq hkb, hd1k k hka hkb]
    rw [Finset.sum_congr rfl hpt,
      sum_update_two s.delta stages a b ha hb hab (s.delta a + txc) (s.delta b - txc)]
    omega

/-- The inner pairing loop succeeds (every `transfer_cpus` assert and sign
assert passes), preserves the invariant, touches only `si` and the listed
stages, is the identity when `delta si` is already 0, and leaves no
opposing-sign pair between `si` and any listed stage. -/
theorem transInner_spec {stages : ℕ} {A : Assignment} {newReqs : ℕ → ℤ}
    (hnew : ∀ i < stages, 0 ≤ newReqs i) (si : ℕ) (hsi : si < stages) :
    ∀ (l : List ℕ) (s : TransitionState), l.Nodup → (∀ x ∈ l, x < stages) →
      TransInv stages A newReqs s →
      ∃ s', transInner si s l = some s'
        ∧ TransInv stages A newReqs s'
        ∧ (∀ j, j ∉ l → j ≠ si → s'.delta j = s.delta j ∧ s'.sets j = s.sets j)
        ∧ (s.delta si = 0 → s' = s)
        ∧ (0 < s'.delta si → ∀ x ∈ l, 0 ≤ s'.delta x)
        ∧ (s'.delta si < 0 → ∀ x ∈ l, s'.delta x ≤ 0) := by
  intro l
  induction l with
  | nil =>
    intro s _ _ hinv
    refine ⟨s, by simp [transInner], hinv, fun j _ _ => ⟨rfl, rfl⟩, fun _ => rfl,
      fun _ x hx => absurd hx (List.not_mem_nil x),
      fun _ x hx => absurd hx (List.not_mem_nil x)⟩
  | cons isi rest ih =>
    intro s hnd hlt hinv
    obtain ⟨hisi_rest, hnd_rest⟩ := List.nodup_cons.mp hnd
    have hisi_lt : isi < stages := hlt isi (by simp)
    have hrest_lt : ∀ x ∈ rest, x < stages := fun x hx => hlt x (by simp [hx])
    have hinv_keep := hinv
    obtain ⟨I1, I2, I3, I4, I5⟩ := hinv_keep
    by_cases hb1 : s.delta isi < 0 ∧ 0 < s.delta si
    · have hab : isi ≠ si := fun h => by rw [h] at hb1; omega
      have htx1 : min (s.delta isi).natAbs (s.delta si).natAbs ≤ (s.delta isi).natAbs :=
        Nat.min_le_left _ _
      have htx2 : min (s.delta isi).natAbs (s.delta si).natAbs ≤ (s.delta si).natAbs :=
        Nat.min_le_right _ _
      have htx3 : min (s.delta isi).natAbs (s.delta si).natAbs = (s.delta isi).natAbs
          ∨ min (s.delta isi).natAbs (s.delta si).natAbs = (s.delta si).natAbs :=
        min_choice _ _
      have hcard : min (s.delta isi).natAbs (s.delta si).natAbs ≤ (s.sets isi).card := by
        have h1 := I1 isi hisi_lt
        have h2 := hnew isi hisi_lt
        omega
      have hdisj : Disjoint (s.sets isi) (s.sets si) := I2 isi hisi_lt si hsi hab
      obtain ⟨m, hmsub, hmcard, heq⟩ := transferCpus_spec _ _ _ hdisj hcard
      have hchk : s.delta isi + (min (s.delta isi).natAbs (s.delta si).natAbs : ℕ) ≤ 0
          ∧ (0:ℤ) ≤ s.delta si - (min (s.delta isi).natAbs (s.delta si).natAbs : ℕ) := by
        omega
      set txc := min (s.delta isi).natAbs (s.delta si).natAbs with htxc
      set s1 : TransitionState :=
        ⟨Function.update (Function.update s.delta si (s.delta si - txc)) isi
           (s.delta isi + txc),
         Function.update (Function.update s.sets si (s.sets si ∪ m)) isi
           (s.sets isi \ m)⟩ with hs1def
      have hstep : transInner si s (isi :: rest) = transInner si s1 rest := by
        simp only [transInner]
        rw [if_pos hb1, heq]
        simp only [hs1def]
        rw [if_pos hchk]
      have hd1a : s1.delta isi = s.delta isi + txc := by
        simp [hs1def]
      have hd1b : s1.delta si = s.delta si - txc := by
        simp [hs1def, Function.update_noteq (Ne.symm hab)]
      have hd1k : ∀ k, k ≠ isi → k ≠ si → s1.delta k = s.delta k := by
        intro k h1 h2
        simp [hs1def, Function.update_noteq h1, Function.update_noteq h2]
      have hs1a : s1.sets isi = s.sets isi \ m := by
        simp [hs1def]
      have hs1b : s1.sets si = s.sets si ∪ m := by
        simp [hs1def, Function.update_noteq (Ne.symm hab)]
      have hs1k : ∀ k, k ≠ isi → k ≠ si → s1.sets k = s.sets k := by
        intro k h1 h2
        simp [hs1def, Function.update_noteq h1, Function.update_noteq h2]
      have hinv1 : TransInv stages A newReqs s1 := by
        have := move_preserves_inv hinv hisi_lt hsi hb1.1 hb1.2 htxc hmsub hmcard
          hd1a hd1b hd1k hs1a hs1b hs1k
        exact this
      obtain ⟨s'', hrun, hinv'', hunt, hzero, hpos, hneg⟩ := ih s1 hnd_rest hrest_lt hinv1
      refine ⟨s'', by rw [hstep]; exact hrun, hinv'', ?_, ?_, ?_, ?_⟩
      · intro j hj hjsi
        have hj_rest : j ∉ rest := fun h => hj (by simp [h])
        have hj_isi : j ≠ isi := fun h => hj (by simp [h])
        obtain ⟨hdj, hsj⟩ := hunt j hj_rest hjsi
        exact ⟨hdj.trans (hd1k j hj_isi hjsi), hsj.trans (hs1k j hj_isi hjsi)⟩
      · intro h0
        exact absurd h0 (by omega)
      · intro hp x hx
        rcases List.mem_cons.mp hx with rfl | hx'
        · rw [(hunt x hisi_rest hab).1, hd1a]
          by_cases h0 : s1.delta si = 0
          · rw [hzero h0] at hp
            rw [hd1b] at h0
            omega
          · rw [hd1b] at h0
            omega
        · exact hpos hp x hx'
      · intro hn x hx
        rcases List.mem_cons.mp hx with rfl | hx'
        · rw [(hunt x hisi_rest hab).1, hd1a]
          omega
        · exact hneg hn x hx'
    · by_cases hb2 : 0 < s.delta isi ∧ s.delta si < 0
      · have hab : isi ≠ si := fun h => by rw [h] at hb2; omega
        have htx1 : min (s.delta isi).natAbs (s.delta si).natAbs ≤ (s.delta isi).natAbs :=
          Nat.min_le_left _ _
        have htx2 : min (s.delta isi).natAbs (s.delta si).natAbs ≤ (s.delta si).natAbs :=
          Nat.min_le_right _ _
        have htx3 : min (s.delta isi).natAbs (s.delta si).natAbs = (s.delta isi).natAbs
            ∨ min (s.delta isi).natAbs (s.delta si).natAbs = (s.delta si).natAbs :=
          min_choice _ _
        have hcard : min (s.delta isi).natAbs (s.delta si).natAbs ≤ (s.sets si).card := by
          have h1 := I1 si hsi
          have h2 := hnew si hsi
          omega
        have hdisj : Disjoint (s.sets si) (s.sets isi) := I2 si hsi isi hisi_lt (Ne.symm hab)
        obtain ⟨m, hmsub, hmcard, heq⟩ := transferCpus_spec _ _ _ hdisj hcard
        have hchk : (0:ℤ) ≤ s.delta isi - (min (s.delta isi).natAbs (s.delta si).natAbs : ℕ)
            ∧ s.delta si + (min (s.delta isi).natAbs (s.delta si).natAbs : ℕ) ≤ 0 := by
          omega
        set txc := min (s.delta isi).natAbs (s.delta si).natAbs with htxc
        set s1 : TransitionState :=
          ⟨Function.update (Function.update s.delta si (s.delta si + txc)) isi
             (s.delta isi - txc),
           Function.update (Function.update s.sets si (s.sets si \ m)) isi
             (s.sets isi ∪ m)⟩ with hs1def
        have hstep : transInner si s (isi :: rest) = transInner si s1 rest := by
          simp only [transInner]
          rw [if_neg hb1, if_pos hb2, heq]
          simp only [hs1def]
          rw [if_pos hchk]
        have hd1a : s1.delta si = s.delta si + txc := by
          simp [hs1def, Function.update_noteq (Ne.symm hab)]
        have hd1b : s1.delta isi = s.delta isi - txc := by
          simp [hs1def]
        have hd1k : ∀ k, k ≠ si → k ≠ isi → s1.delta k = s.delta k := by
          intro k h1 h2
          simp [hs1def, Function.update_noteq h1, Function.update_noteq h2]
        have hs1a : s1.sets si = s.sets si \ m := by
          simp [hs1def, Function.update_noteq (Ne.symm hab)]
        have hs1b : s1.sets isi = s.sets isi ∪ m := by
          simp [hs1def]
        have hs1k : ∀ k, k ≠ si → k ≠ isi → s1.sets k = s.sets k := by
          intro k h1 h2
          simp [hs1def, Function.update_noteq h1, Function.update_noteq h2]
        have hinv1 : TransInv stages A newReqs s1 := by
          refine move_preserves_inv hinv hsi hisi_lt hb2.2 hb2.1 ?_ hmsub hmcard
            hd1a hd1b hd1k hs1a hs1b hs1k
          rw [htxc, Nat.min_comm]
        obtain ⟨s'', hrun, hinv'', hunt, hzero, hpos, hneg⟩ := ih s1 hnd_rest hrest_lt hinv1
        refine ⟨s'', by rw [hstep]; exact hrun, hinv'', ?_, ?_, ?_, ?_⟩
        · intro j hj hjsi
          have hj_rest : j ∉ rest := fun h => hj (by simp [h])
          have hj_isi : j ≠ isi := fun h => hj (by simp [h])
          obtain ⟨hdj, hsj⟩ := hunt j hj_rest hjsi
          exact ⟨hdj.trans (hd1k j hjsi hj_isi), hsj.trans (hs1k j hjsi hj_isi)⟩
        · intro h0
          exact absurd h0 (by omega)
        · intro hp x hx
          rcases List.mem_cons.mp hx with rfl | hx'
          · rw [(hunt x hisi_rest hab).1, hd1b]
            omega
          · exact hpos hp x hx'
        · intro hn x hx
          rcases List.mem_cons.mp hx with rfl | hx'
          · rw [(hunt x hisi_rest hab).1, hd1b]
            by_cases h0 : s1.delta si = 0
            · rw [hzero h0] at hn
              rw [hd1a] at h0
              omega
            · rw [hd1a] at h0
              omega
          · exact hneg hn x hx'
      · have hstep : transInner si s (isi :: rest) = transInner si s rest := by
          simp only [transInner]
          rw [if_neg hb1, if_neg hb2]
        obtain ⟨s'', hrun, hinv'', hunt, hzero, hpos, hneg⟩ := ih s hnd_rest hrest_lt hinv
        refine ⟨s'', by rw [hstep]; exact hrun, hinv'', ?_, hzero, ?_, ?_⟩
        · intro j hj hjsi
          exact hunt j (fun h => hj (by simp [h])) hjsi
        · intro hp x hx
          rcases List.mem_cons.mp hx with rfl | hx'
          · by_cases hxsi : x = si
            · rw [hxsi]
              exact le_of_lt hp
            · rw [(hunt x hisi_rest hxsi).1]
              obtain ⟨J1, J2, J3, J4, J5⟩ := hinv''
              have hd0si : 0 ≤ newReqs si - A.reqs si := by
                by_contra hcon
                push_neg at hcon
                have := (J4 si hsi (le_of_lt hcon)).1
                omega
              have h1 : 0 ≤ s.delta si := (I3 si hsi hd0si).1
              by_cases h0 : s.delta si = 0
              · rw [hzero h0] at hp
                omega
              · have h2 : ¬(s.delta x < 0) := fun hlt0 => hb1 ⟨hlt0, by omega⟩
                omega
          · exact hpos hp x hx'
        · intro hn x hx
          rcases List.mem_cons.mp hx with rfl | hx'
          · by_cases hxsi : x = si
            · rw [hxsi]
              exact le_of_lt hn
            · rw [(hunt x hisi_rest hxsi).1]
              obtain ⟨J1, J2, J3, J4, J5⟩ := hinv''
              have hd0si : newReqs si - A.reqs si ≤ 0 := by
                by_contra hcon
                push_neg at hcon
                have := (J3 si hsi (le_of_lt hcon)).1
                omega
              have h1 : s.delta si ≤ 0 := (I4 si hsi hd0si).1
              by_cases h0 : s.delta si = 0
              · rw [hzero h0] at hn
                omega
              · have h2 : ¬(0 < s.delta x) := fun hgt0 => hb2 ⟨hgt0, by omega⟩
                omega
          · exact hneg hn x hx'

/-- The outer pairing loop, run over the last `k` stage indices, drives every
delta to 0 (so each `assert(req_delta[si] == 0)` passes) while preserving the
invariant. -/
theorem transOuter_spec {stages : ℕ} {A : Assignment} {newReqs : ℕ → ℤ}
    (hnew : ∀ i < stages, 0 ≤ newReqs i) :
    ∀ (k : ℕ) (s : TransitionState), k ≤ stages →
      TransInv stages A newReqs s →
      (∀ j < stages - k, s.delta j = 0) →
      ∃ s', transOuter stages s (List.range' (stages - k) k) = some s'
        ∧ TransInv stages A newReqs s'
        ∧ ∀ j < stages, s'.delta j = 0 := by
  intro k
  induction k with
  | zero =>
    intro s _ hinv hpre
    exact ⟨s, by simp [transOuter], hinv, fun j hj => hpre j (by omega)⟩
  | succ k ihk =>
    intro s hk hinv hpre
    have hsi : stages - (k + 1) < stages := by omega
    set si := stages - (k + 1) with hsi_def
    have hlen : stages - si = k + 1 := by omega
    have hsucc : si + 1 = stages - k := by omega
    have hrange : List.range' si (k + 1) = si :: List.range' (si + 1) k :=
      List.range'_succ si k 1
    have hinner_nd : (List.range' si (stages - si)).Nodup := List.nodup_range' _ _
    have hinner_lt : ∀ x ∈ List.range' si (stages - si), x < stages := by
      intro x hx
      have := List.mem_range'_1.mp hx
      omega
    by_cases h0 : s.delta si = 0
    · have hstep : transOuter stages s (List.range' si (k + 1))
          = transOuter stages s (List.range' (si + 1) k) := by
        rw [hrange]
        simp only [transOuter]
        rw [if_pos h0]
      obtain ⟨s', hrun, hinv', hall⟩ := ihk s (by omega) hinv (by
        intro j hj
        rcases Nat.lt_or_ge j si with hlt | hge
        · exact hpre j (by omega)
        · have : j = si := by omega
          rw [this]
          exact h0)
      exact ⟨s', by rw [hstep, hsucc]; exact hrun, hinv', hall⟩
    · obtain ⟨s1, hrunInner, hinv1, hunt, _, hpos, hneg⟩ :=
        transInner_spec hnew si hsi (List.range' si (stages - si)) s hinner_nd
          hinner_lt hinv
      have huntouched_low : ∀ j < si, s1.delta j = s.delta j := by
        intro j hj
        refine (hunt j ?_ (by omega)).1
        intro hmem
        have := List.mem_range'_1.mp hmem
        omega
      have hzero_si : s1.delta si = 0 := by
        obtain ⟨J1, J2, J3, J4, J5⟩ := hinv1
        by_contra hnz
        have hsplit : ∑ i in Finset.range stages, s1.delta i
            = (∑ i in Finset.Ico 0 si, s1.delta i) + ∑ i in Finset.Ico si stages, s1.delta i := by
          rw [Finset.range_eq_Ico]
          exact (Finset.sum_Ico_consecutive _ (Nat.zero_le si) (le_of_lt hsi)).symm
        have hlow : ∑ i in Finset.Ico 0 si, s1.delta i = 0 := by
          apply Finset.sum_eq_zero
          intro j hj
          have hj' := Finset.mem_Ico.mp hj
          rw [huntouched_low j hj'.2]
          exact hpre j (by omega)
        have hsimem : si ∈ Finset.Ico si stages := Finset.mem_Ico.mpr ⟨le_refl si, hsi⟩
        have hhi : ∑ i in Finset.Ico si stages, s1.delta i
            = s1.delta si + ∑ i in (Finset.Ico si stages).erase si, s1.delta i :=
          (Finset.add_sum_erase _ _ hsimem).symm
        rcases lt_or_gt_of_ne hnz with hneg_si | hpos_si
        · have hrest_nonpos : ∀ i ∈ (Finset.Ico si stages).erase si, s1.delta i ≤ 0 := by
            intro i hi
            obtain ⟨_, hi2⟩ := Finset.mem_erase.mp hi
            have hi3 := Finset.mem_Ico.mp hi2
            refine hneg hneg_si i ?_
            rw [List.mem_range'_1]
            omega
          have hsum_le : ∑ i in (Finset.Ico si stages).erase si, s1.delta i ≤ 0 :=
            Finset.sum_nonpos hrest_nonpos
          omega
        · have hrest_nonneg : ∀ i ∈ (Finset.Ico si stages).erase si, 0 ≤ s1.delta i := by
            intro i hi
            obtain ⟨_, hi2⟩ := Finset.mem_erase.mp hi
            have hi3 := Finset.mem_Ico.mp hi2
            refine hpos hpos_si i ?_
            rw [List.mem_range'_1]
            omega
          have hsum_ge : 0 ≤ ∑ i in (Finset.Ico si stages).erase si, s1.delta i :=
            Finset.sum_nonneg hrest_nonneg
          omega
      have hstep : transOuter stages s (List.range' si (k + 1))
          = transOuter stages s1 (List.range' (si + 1) k) := by
        rw [hrange]
        simp only [transOuter]
        rw [if_neg h0, hrunInner]
        simp only [hzero_si, if_pos]
      obtain ⟨s', hrun, hinv', hall⟩ := ihk s1 (by omega) hinv1 (by
        intro j hj
        rcases Nat.lt_or_ge j si with hlt | hge
        · rw [huntouched_low j hlt]
          exact hpre j (by omega)
        · have : j = si := by omega
          rw [this]
          exact hzero_si)
      refine ⟨s', ?_, hinv', hall⟩
      rw [← hlen] at hstep ⊢
      rw [hstep, hsucc]
      exact hrun

/-- C4: for an assignment whose per-stage CPU sets are pairwise disjoint with
sizes equal to its stored requirements, and a valid new requirements vector
with the same total, `transition_to` succeeds (every assert passes) and:
the new per-stage set sizes equal the new requirements; a CPU changes stage
only from a stage with negative delta to a stage with positive delta; the
number of CPUs that change stage equals `Σ max(0, new - old)`; and no
assignment of the new sizes changes fewer CPUs (minimality). -/
theorem transition_to_minimal_moves (a : Assignment) (newReqs : ℕ → ℤ)
    (hdisj : ∀ i < a.stages, ∀ j < a.stages, i ≠ j →
      Disjoint (a.cpusPerStage i) (a.cpusPerStage j))
    (hcard : ∀ i < a.stages, ((a.cpusPerStage i).card : ℤ) = a.reqs i)
    (hvalid : validReqs a.stages a.cpus newReqs)
    (holdsum : ∑ i in Finset.range a.stages, a.reqs i = a.cpus) :
    ∃ a', transitionTo a newReqs = some a'
      ∧ a'.reqs = newReqs ∧ a'.stages = a.stages ∧ a'.cpus = a.cpus
      ∧ (∀ s < a.stages, ((a'.cpusPerStage s).card : ℤ) = newReqs s)
      ∧ (∀ s < a.stages, ∀ t < a.stages, s ≠ t →
          ∀ c ∈ a.cpusPerStage s, c ∈ a'.cpusPerStage t →
            newReqs s - a.reqs s < 0 ∧ 0 < newReqs t - a.reqs t)
      ∧ (∑ s in Finset.range a.stages, ((a'.cpusPerStage s \ a.cpusPerStage s).card : ℤ)
          = ∑ s in Finset.range a.stages, max 0 (newReqs s - a.reqs s))
      ∧ (∀ B : ℕ → Finset ℕ, (∀ s < a.stages, ((B s).card : ℤ) = newReqs s) →
          ∑ s in Finset.range a.stages, max 0 (newReqs s - a.reqs s)
            ≤ ∑ s in Finset.range a.stages, ((B s \ a.cpusPerStage s).card : ℤ)) := by
  have hnew : ∀ i < a.stages, 0 ≤ newReqs i := hvalid.1
  have hsum_delta : ∑ si in Finset.range a.stages, (newReqs si - a.reqs si) = 0 := by
    rw [Finset.sum_sub_distrib, hvalid.2, holdsum]
    ring
  have hinv0 : TransInv a.stages a newReqs
      ⟨fun si => newReqs si - a.reqs si, a.cpusPerStage⟩ := by
    refine ⟨?_, hdisj, ?_, ?_, hsum_delta⟩
    · intro i hi
      dsimp only
      rw [hcard i hi]
      ring
    · intro i hi h0
      dsimp only
      exact ⟨by omega, le_refl _, le_refl _⟩
    · intro i hi h0
      dsimp only
      exact ⟨by omega, le_refl _, le_refl _⟩
  obtain ⟨s', hrun, hinv', hall⟩ :=
    transOuter_spec (A := a) hnew a.stages
      ⟨fun si => newReqs si - a.reqs si, a.cpusPerStage⟩ (le_refl _) hinv0
      (fun j hj => absurd hj (by omega))
  have hrun' : transOuter a.stages
      ⟨fun si => newReqs si - a.reqs si, a.cpusPerStage⟩ (List.range a.stages)
      = some s' := by
    rw [List.range_eq_range']
    have : a.stages - a.stages = 0 := by omega
    rw [← Nat.sub_self a.stages]
    exact hrun
  obtain ⟨J1, J2, J3, J4, J5⟩ := hinv'
  have hfinal : transitionTo a newReqs = some ⟨newReqs, s'.sets, a.cpus, a.stages⟩ := by
    unfold transitionTo
    rw [if_pos hvalid, if_pos hsum_delta, hrun']
  refine ⟨⟨newReqs, s'.sets, a.cpus, a.stages⟩, hfinal, rfl, rfl, rfl, ?_, ?_, ?_, ?_⟩
  · intro s hs
    have := J1 s hs
    rw [hall s hs] at this
    simpa using this
  · intro s hs t ht hst c hcs hct
    constructor
    · by_contra hcon
      push_neg at hcon
      have hsub := (J3 s hs hcon).2.2
      have hc1 : c ∈ s'.sets s := hsub hcs
      exact absurd hct (Finset.disjoint_left.mp (J2 s hs t ht hst) hc1)
    · by_contra hcon
      push_neg at hcon
      have hsub := (J4 t ht hcon).2.2
      have hc1 : c ∈ a.cpusPerStage t := hsub hct
      exact absurd hc1 (Finset.disjoint_left.mp (hdisj s hs t ht hst) hcs)
  · apply Finset.sum_congr rfl
    intro s hs
    have hslt := Finset.mem_range.mp hs
    rcases le_or_lt 0 (newReqs s - a.reqs s) with h0 | h0
    · have hsub := (J3 s hslt h0).2.2
      rw [Finset.card_sdiff hsub, Nat.cast_sub (Finset.card_le_card hsub)]
      have h1 := J1 s hslt
      rw [hall s hslt] at h1
      have h2 := hcard s hslt
      rw [max_eq_right h0]
      omega
    · have hsub := (J4 s hslt (le_of_lt h0)).2.2
      rw [Finset.sdiff_eq_empty_iff_subset.mpr hsub]
      rw [max_eq_left (by omega)]
      simp
  · intro B hB
    apply Finset.sum_le_sum
    intro s hs
    have hslt := Finset.mem_range.mp hs
    have hle := Finset.le_card_sdiff (a.cpusPerStage s) (B s)
    have h1 := hB s hslt
    have h2 := hcard s hslt
    omega

/-- Concrete starting assignment for the C4 witness: 2 CPUs, 2 stages,
stage 0 owns CPU 0 and stage 1 owns CPU 1. -/
def witnessAssignment : Assignment :=
  ⟨fun i => if i = 0 then 1 else if i = 1 then 1 else 0,
   fun i => if i = 0 then {0} else if i = 1 then {1} else ∅, 2, 2⟩

/-- Concrete new requirements for the C4 witness: stage 0 takes both CPUs. -/
def witnessNewReqs : ℕ → ℤ := fun i => if i = 0 then 2 else 0

/-- Witness: `transition_to_minimal_moves` applied to the concrete
assignment, with every hypothesis discharged by evaluation. -/
theorem transition_to_minimal_moves_witness :
    validReqs witnessAssignment.stages witnessAssignment.cpus witnessNewReqs
    ∧ ∃ a', transitionTo witnessAssignment witnessNewReqs = some a' := by
  obtain ⟨a', ha, _⟩ := transition_to_minimal_moves witnessAssignment witnessNewReqs
    (by decide) (by decide) (by decide) (by decide)
  exact ⟨by decide, ⟨a', ha⟩⟩

/-! ## C3: phase 1 of `stage::update_assignment` (sched.cc:637-753)

The `float` arithmetic of the balancer is modelled exactly over `ℚ`
(`_stage_sizes_expavg_factor = 0.1` becomes `1/10`, `eps = 0.003` becomes
`3/1000`); `std::floor` of a nonnegative value feeding an `int` becomes
`Int.floor`.  The unbounded `while` loops are written with an explicit fuel
argument returning `none` on exhaustion; the proofs below show the fuel
bounds used by the embedding always suffice, so `none` results only from a
failed assert — which the C++ code turns into an abort. -/

/-- `cpus_fp = cpus_left * sp[si]; cpus = std::floor(cpus_fp)`
(sched.cc:686-687). -/
def stageInts (L : ℤ) (sp : ℕ → ℚ) (i : ℕ) : ℤ := ⌊(L : ℚ) * sp i⌋

/-- `remainders[si] = cpus_fp - cpus` (sched.cc:689). -/
def stageRems (L : ℤ) (sp : ℕ → ℚ) (i : ℕ) : ℚ := (L : ℚ) * sp i - ⌊(L : ℚ) * sp i⌋

/-- `cpus_assigned`, the integer parts summed over the active stages
(sched.cc:692-693). -/
def cpusAssigned (st : ℕ) (L : ℤ) (sp : ℕ → ℚ) : ℤ :=
  ∑ i in Finset.range st, stageInts L sp i

/-- `reqs[si] += cpus` for the active stages (sched.cc:692). -/
def bumpReqs (st : ℕ) (L : ℤ) (sp : ℕ → ℚ) (reqs : ℕ → ℤ) : ℕ → ℤ :=
  fun i => if i < st then reqs i + stageInts L sp i else reqs i

/-- The `max_idx` scan (sched.cc:716-719): leftmost maximum, walking the
indices upward and replacing the candidate only on a strictly greater
value.  `findMaxIdxGo sp cur next r` has examined `[0, next)` with current
candidate `cur` and `r` indices left to examine. -/
def findMaxIdxGo (sp : ℕ → ℚ) (cur next : ℕ) : ℕ → ℕ
  | 0 => cur
  | r + 1 => findMaxIdxGo sp (if sp cur < sp next then next else cur) (next + 1) r

/-- `max_idx` for `sp` over `[0, st)`. -/
def findMaxIdx (sp : ℕ → ℚ) (st : ℕ) : ℕ := findMaxIdxGo sp 0 1 (st - 1)

/-- The `min_idx` scan (sched.cc:721-725): rightmost nonzero minimum,
walking the indices downward; the candidate moves to the examined index when
the candidate's value is 0, or when the examined value is nonzero and
strictly smaller.  `findMinIdxGo sp cur k` has `k` indices
(`k-1, k-2, ..., 0`) left to examine. -/
def findMinIdxGo (sp : ℕ → ℚ) (cur : ℕ) : ℕ → ℕ
  | 0 => cur
  | k + 1 =>
    findMinIdxGo sp (if sp cur = 0 ∨ (sp k ≠ 0 ∧ sp k < sp cur) then k else cur) k

/-- `min_idx` for `sp` over `[0, st)`. -/
def findMinIdx (sp : ℕ → ℚ) (st : ℕ) : ℕ := findMinIdxGo sp (st - 1) (st - 1)

/-- The priority rebalancing `sp[max_idx] += sp[min_idx]; sp[min_idx] = 0`
(sched.cc:735-736). -/
def redistributeSp (sp : ℕ → ℚ) (st : ℕ) : ℕ → ℚ :=
  fun i =>
    if i = findMinIdx sp st then 0
    else if i = findMaxIdx sp st then sp (findMaxIdx sp st) + sp (findMinIdx sp st)
    else sp i

/-- The `while (true)` drive-toward-a-winner loop (sched.cc:682-738):
compute integer parts and remainders; `assert(cpus >= 0)` per stage; break
with the updated `reqs` when `cpus_assigned > 0`; otherwise
`assert(stages_next >= 2)`, find `max_idx`/`min_idx`, and either hand the
single remaining CPU to the lone stage (asserting `cpus_left == 1` and
`sp[max_idx] + eps > 1`) or rebalance priorities and retry.  Returns
`(sp after rebalancing, updated reqs, remainders of the final round,
cpus_assigned)`. -/
def innerLoop (st : ℕ) (L : ℤ) (sp : ℕ → ℚ) (reqs : ℕ → ℤ) :
    ℕ → Option ((ℕ → ℚ) × (ℕ → ℤ) × (ℕ → ℚ) × ℤ)
  | 0 => none
  | fuel + 1 =>
    if ¬ (∀ i < st, 0 ≤ stageInts L sp i) then
      none
    else if 0 < cpusAssigned st L sp then
      some (sp, bumpReqs st L sp reqs, stageRems L sp, cpusAssigned st L sp)
    else if st < 2 then
      none
    else if findMinIdx sp st = findMaxIdx sp st then
      if L = 1 ∧ 1 < sp (findMaxIdx sp st) + 3 / 1000 then
        some (sp,
          fun i => if i = findMaxIdx sp st then bumpReqs st L sp reqs i + 1
            else bumpReqs st L sp reqs i,
          stageRems L sp, cpusAssigned st L sp + 1)
      else
        none
    else
      innerLoop st L (redistributeSp sp st) (bumpReqs st L sp reqs) fuel

/-- The `while (cpus_left > 0)` distribution loop (sched.cc:675-751): run the
inner loop, `assert(cpus_assigned > 0)` and `assert(cpus_assigned <=
cpus_left)`, renormalize the remainders into the next round's priorities
(`sp[si] = remainders[si] / total_remainders`), and subtract; after the loop
`assert(cpus_left == 0)`. -/
def outerLoop (st : ℕ) (sp : ℕ → ℚ) (reqs : ℕ → ℤ) (L : ℤ) :
    ℕ → Option (ℕ → ℤ)
  | 0 => none
  | fuel + 1 =>
    if 0 < L then
      match innerLoop st L sp reqs (st + 1) with
      | none => none
      | some (sp1, reqs1, rems, assigned) =>
        if 0 < assigned ∧ assigned ≤ L then
          outerLoop st
            (fun i => if i < st then rems i / (∑ j in Finset.range st, rems j) else sp1 i)
            reqs1 (L - assigned) fuel
        else
          none
    else if L = 0 then
      some reqs
    else
      none

/-- The exponential smoothing `stage_sizes_f[si] = 0.1 * stage_sizes[si] +
0.9 * expavg[si]` (sched.cc:648-649). -/
def smoothedLoads (sizes : ℕ → ℤ) (prev : ℕ → ℚ) : ℕ → ℚ :=
  fun i => (1 / 10) * (sizes i : ℚ) + (1 - 1 / 10) * prev i

/-- Phase 1 of `stage::update_assignment` (sched.cc:637-753): smooth the
per-stage loads, return early if the total smoothed load is not positive,
normalize into first-round priorities (`assert(sp_total <= 1.0 + eps)`), and
distribute the CPUs.  `none` models the early return or an abort. -/
def updateAssignmentPhase1 (ncpus st : ℕ) (sizes : ℕ → ℤ) (prev : ℕ → ℚ) :
    Option (ℕ → ℤ) :=
  if (∑ i in Finset.range st, smoothedLoads sizes prev i) ≤ 0 then
    none
  else if (∑ i in Finset.range st,
      (if i < st
        then smoothedLoads sizes prev i / ∑ j in Finset.range st, smoothedLoads sizes prev j
        else 0)) ≤ 1 + 3 / 1000 then
    outerLoop st
      (fun i => if i < st
        then smoothedLoads sizes prev i / ∑ j in Finset.range st, smoothedLoads sizes prev j
        else 0)
      (fun _ => 0) ncpus (ncpus + 1)
  else
    none

theorem findMaxIdxGo_spec (sp : ℕ → ℚ) :
    ∀ (r cur next : ℕ), cur < next →
      (∀ i < next, sp i ≤ sp cur) → (∀ i < cur, sp i < sp cur) →
      findMaxIdxGo sp cur next r < next + r
        ∧ (∀ i < next + r, sp i ≤ sp (findMaxIdxGo sp cur next r))
        ∧ (∀ i < findMaxIdxGo sp cur next r, sp i < sp (findMaxIdxGo sp cur next r)) := by
  intro r
  induction r with
  | zero =>
    intro cur next h1 h2 h3
    exact ⟨by simpa using h1, by simpa using h2, h3⟩
  | succ r ih =>
    intro cur next h1 h2 h3
    simp only [findMaxIdxGo]
    have hshift : next + 1 + r = next + (r + 1) := by omega
    by_cases hc : sp cur < sp next
    · rw [if_pos hc]
      have := ih next (next + 1) (by omega)
        (fun i hi => by
          rcases Nat.lt_or_ge i next with h | h
          · exact le_of_lt (lt_of_le_of_lt (h2 i h) hc)
          · have : i = next := by omega
            rw [this])
        (fun i hi => lt_of_le_of_lt (h2 i hi) hc)
      rwa [hshift] at this
    · rw [if_neg hc]
      have := ih cur (next + 1) (by omega)
        (fun i hi => by
          rcases Nat.lt_or_ge i next with h | h
          · exact h2 i h
          · have : i = next := by omega
            rw [this]
            exact le_of_not_lt hc)
        h3
      rwa [hshift] at this

theorem findMaxIdx_spec (sp : ℕ → ℚ) (st : ℕ) (hst : 1 ≤ st) :
    findMaxIdx sp st < st ∧ (∀ i < st, sp i ≤ sp (findMaxIdx sp st))
      ∧ ∀ i < findMaxIdx sp st, sp i < sp (findMaxIdx sp st) := by
  have h := findMaxIdxGo_spec sp (st - 1) 0 1 (by omega)
    (fun i hi => by
      have : i = 0 := by omega
      rw [this])
    (fun i hi => absurd hi (by omega))
  rw [show 1 + (st - 1) = st from by omega] at h
  exact h

theorem findMinIdxGo_spec (sp : ℕ → ℚ) (st : ℕ) :
    ∀ (k cur : ℕ), k ≤ cur → cur < st →
      (sp cur = 0 → ∀ i, k ≤ i → i < st → sp i = 0) →
      (∀ i, k ≤ i → i < st → sp i ≠ 0 → sp cur ≤ sp i) →
      (∀ j, cur < j → j < st → sp j = 0 ∨ sp cur < sp j) →
      findMinIdxGo sp cur k < st
        ∧ (sp (findMinIdxGo sp cur k) = 0 → ∀ i < st, sp i = 0)
        ∧ (∀ i < st, sp i ≠ 0 → sp (findMinIdxGo sp cur k) ≤ sp i)
        ∧ (∀ j, findMinIdxGo sp cur k < j → j < st →
            sp j = 0 ∨ sp (findMinIdxGo sp cur k) < sp j) := by
  intro k
  induction k with
  | zero =>
    intro cur hk hcur hA2 hA3 hA4
    simp only [findMinIdxGo]
    exact ⟨hcur, fun hz i hi => hA2 hz i (Nat.zero_le i) hi,
           fun i hi hnz => hA3 i (Nat.zero_le i) hi hnz, hA4⟩
  | succ k ih =>
    intro cur hk hcur hA2 hA3 hA4
    simp only [findMinIdxGo]
    by_cases hcond : sp cur = 0 ∨ (sp k ≠ 0 ∧ sp k < sp cur)
    · rw [if_pos hcond]
      have hkst : k < st := by omega
      rcases hcond with hz | ⟨hknz, hklt⟩
      · have hall : ∀ i, k + 1 ≤ i → i < st → sp i = 0 := hA2 hz
        refine ih k (le_refl k) hkst ?_ ?_ ?_
        · intro _ i hki hist
          rcases Nat.eq_or_lt_of_le hki with h | h
          · rw [← h]
            assumption
          · exact hall i h hist
        · intro i hki hist hnz
          rcases Nat.eq_or_lt_of_le hki with h | h
          · rw [h]
          · exact absurd (hall i h hist) hnz
        · intro j hkj hjst
          exact Or.inl (hall j hkj hjst)
      · refine ih k (le_refl k) hkst ?_ ?_ ?_
        · intro hz
          exact absurd hz hknz
        · intro i hki hist hnz
          rcases Nat.eq_or_lt_of_le hki with h | h
          · rw [h]
          · exact le_of_lt (lt_of_lt_of_le hklt (hA3 i h hist hnz))
        · intro j hkj hjst
          rcases Nat.lt_trichotomy j cur with hjc | hjc | hjc
          · have hj1 : k + 1 ≤ j := hkj
            by_cases hjz : sp j = 0
            · exact Or.inl hjz
            · exact Or.inr (lt_of_lt_of_le hklt (hA3 j hj1 hjst hjz))
          · rw [hjc]
            exact Or.inr hklt
          · rcases hA4 j hjc hjst with h | h
            · exact Or.inl h
            · exact Or.inr (lt_trans hklt h)
    · rw [if_neg hcond]
      push_neg at hcond
      obtain ⟨hcnz, hkor⟩ := hcond
      refine ih cur (by omega) hcur ?_ ?_ hA4
      · intro hz
        exact absurd hz hcnz
      · intro i hki hist hnz
        rcases Nat.eq_or_lt_of_le hki with h | h
        · rw [← h] at hnz ⊢
          rcases Classical.em (sp k = 0) with hk0 | hk0
          · exact absurd hk0 hnz
          · exact le_of_not_lt (fun hlt => absurd hlt (by
              intro hlt'
              exact absurd (hkor hk0) (not_le_of_lt hlt')))
        · exact hA3 i h hist hnz

theorem findMinIdx_spec (sp : ℕ → ℚ) (st : ℕ) (hst : 1 ≤ st) :
    findMinIdx sp st < st
      ∧ (sp (findMinIdx sp st) = 0 → ∀ i < st, sp i = 0)
      ∧ (∀ i < st, sp i ≠ 0 → sp (findMinIdx sp st) ≤ sp i)
      ∧ (∀ j, findMinIdx sp st < j → j < st →
          sp j = 0 ∨ sp (findMinIdx sp st) < sp j) := by
  refine findMinIdxGo_spec sp st (st - 1) (st - 1) (le_refl _) (by omega) ?_ ?_ ?_
  · intro hz i hi hist
    have : i = st - 1 := by omega
    rw [this]
    exact hz
  · intro i hi hist _
    have : i = st - 1 := by omega
    rw [this]
  · intro j hj hjst
    omega

/-- If `sp` has two distinct nonzero entries below `st`, the rightmost
nonzero minimum and the leftmost maximum are different indices. -/
theorem findMin_ne_findMax (sp : ℕ → ℚ) (st : ℕ) (hst : 1 ≤ st) {i j : ℕ}
    (hi : i < st) (hj : j < st) (hij : i ≠ j) (hsi : sp i ≠ 0)
    (hsj : sp j ≠ 0) : findMinIdx sp st ≠ findMaxIdx sp st := by
  intro heq
  obtain ⟨hmxlt, hMax, hLeft⟩ := findMaxIdx_spec sp st hst
  obtain ⟨hmnlt, hAllZ, hMin, hRight⟩ := findMinIdx_spec sp st hst
  have hw : ∃ w, w < st ∧ w ≠ findMaxIdx sp st ∧ sp w ≠ 0 := by
    by_cases hcase : i = findMaxIdx sp st
    · exact ⟨j, hj, fun h => hij (hcase.trans h.symm), hsj⟩
    · exact ⟨i, hi, hcase, hsi⟩
  obtain ⟨w, hwlt, hwne, hwnz⟩ := hw
  rcases Nat.lt_trichotomy w (findMaxIdx sp st) with hlt | hEq | hgt
  · have h1 : sp w < sp (findMaxIdx sp st) := hLeft w hlt
    have h2 : sp (findMinIdx sp st) ≤ sp w := hMin w hwlt hwnz
    rw [heq] at h2
    exact absurd h1 (not_lt_of_le h2)
  · exact hwne hEq
  · rw [← heq] at hgt
    rcases hRight w hgt hwlt with h | h
    · exact hwnz h
    · rw [heq] at h
      exact absurd (hMax w hwlt) (not_le_of_lt h)

theorem stageInts_nonneg (L : ℤ) (sp : ℕ → ℚ) (i : ℕ) (hL : 0 ≤ L)
    (hsp : 0 ≤ sp i) : 0 ≤ stageInts L sp i :=
  Int.floor_nonneg.mpr (mul_nonneg (by exact_mod_cast hL) hsp)

theorem stageRems_nonneg (L : ℤ) (sp : ℕ → ℚ) (i : ℕ) : 0 ≤ stageRems L sp i := by
  unfold stageRems
  have := Int.floor_le ((L : ℚ) * sp i)
  linarith

/-- `Σ ⌊L·sp i⌋ ≤ L` when the priorities sum to 1. -/
theorem cpusAssigned_le_L (st : ℕ) (L : ℤ) (sp : ℕ → ℚ)
    (hsum : (∑ i in Finset.range st, sp i) = 1) : cpusAssigned st L sp ≤ L := by
  have hq : ((cpusAssigned st L sp : ℤ) : ℚ) ≤ (L : ℚ) := by
    unfold cpusAssigned
    push_cast
    calc ∑ i in Finset.range st, ((⌊(L : ℚ) * sp i⌋ : ℤ) : ℚ)
        ≤ ∑ i in Finset.range st, (L : ℚ) * sp i :=
          Finset.sum_le_sum (fun i _ => Int.floor_le _)
      _ = (L : ℚ) * ∑ i in Finset.range st, sp i := by rw [Finset.mul_sum]
      _ = (L : ℚ) := by rw [hsum, mul_one]
  exact_mod_cast hq

/-- The remainders of one round sum to `L - cpus_assigned` when the
priorities sum to 1. -/
theorem sum_stageRems (st : ℕ) (L : ℤ) (sp : ℕ → ℚ)
    (hsum : (∑ i in Finset.range st, sp i) = 1) :
    (∑ i in Finset.range st, stageRems L sp i) = (L : ℚ) - cpusAssigned st L sp := by
  unfold stageRems cpusAssigned stageInts
  rw [Finset.sum_sub_distrib]
  push_cast
  rw [← Finset.mul_sum, hsum, mul_one]

/-- The drive-toward-a-winner loop terminates within `#nonzero priorities`
rounds (each rebalancing zeroes one more priority), all its asserts pass,
and it hands out between 1 and `L` CPUs whose remainders sum to
`L - cpus_assigned`. -/
theorem innerLoop_spec (st : ℕ) (hst : 1 ≤ st) (L : ℤ) (hL : 1 ≤ L) :
    ∀ (fuel : ℕ) (sp : ℕ → ℚ) (reqs : ℕ → ℤ),
      (∀ i < st, 0 ≤ sp i) → (∑ i in Finset.range st, sp i) = 1 →
      ((Finset.range st).filter (fun i => sp i ≠ 0)).card ≤ fuel →
      ∃ sp1 rems, ∃ reqs1 : ℕ → ℤ, ∃ assigned : ℤ,
        innerLoop st L sp reqs fuel = some (sp1, reqs1, rems, assigned)
        ∧ 0 < assigned ∧ assigned ≤ L
        ∧ (∀ i < st, 0 ≤ rems i)
        ∧ (∑ i in Finset.range st, rems i) = (L : ℚ) - assigned
        ∧ (∀ i < st, reqs i ≤ reqs1 i)
        ∧ (∑ i in Finset.range st, (reqs1 i - reqs i)) = assigned := by
  intro fuel
  induction fuel with
  | zero =>
    intro sp reqs hsp hsum hcard
    exfalso
    have hempty : (Finset.range st).filter (fun i => sp i ≠ 0) = ∅ :=
      Finset.card_eq_zero.mp (Nat.le_zero.mp hcard)
    have hzero : ∀ i ∈ Finset.range st, sp i = 0 := by
      intro i hi
      by_contra hne
      have : i ∈ (Finset.range st).filter (fun i => sp i ≠ 0) :=
        Finset.mem_filter.mpr ⟨hi, hne⟩
      rw [hempty] at this
      exact absurd this (Finset.not_mem_empty i)
    rw [Finset.sum_eq_zero hzero] at hsum
    exact absurd hsum (by norm_num)
  | succ f ih =>
    intro sp reqs hsp hsum hcard
    have hints : ∀ i < st, 0 ≤ stageInts L sp i :=
      fun i hi => stageInts_nonneg L sp i (by omega) (hsp i hi)
    simp only [innerLoop]
    rw [if_neg (not_not_intro hints)]
    by_cases hassigned : 0 < cpusAssigned st L sp
    · rw [if_pos hassigned]
      refine ⟨sp, stageRems L sp, bumpReqs st L sp reqs, cpusAssigned st L sp,
        rfl, hassigned, cpusAssigned_le_L st L sp hsum,
        fun i _ => stageRems_nonneg L sp i, sum_stageRems st L sp hsum, ?_, ?_⟩
      · intro i hi
        unfold bumpReqs
        rw [if_pos hi]
        have := hints i hi
        omega
      · unfold cpusAssigned
        apply Finset.sum_congr rfl
        intro i hi
        unfold bumpReqs
        rw [if_pos (Finset.mem_range.mp hi)]
        ring
    · rw [if_neg hassigned]
      have hintsz : ∀ i < st, stageInts L sp i = 0 := by
        have hsz : ∑ i in Finset.range st, stageInts L sp i = 0 := by
          have h1 : 0 ≤ ∑ i in Finset.range st, stageInts L sp i :=
            Finset.sum_nonneg (fun i hi => hints i (Finset.mem_range.mp hi))
        -- cpusAssigned = that sum
          unfold cpusAssigned at hassigned
          omega
        intro i hi
        have := (Finset.sum_eq_zero_iff_of_nonneg
          (fun j hj => hints j (Finset.mem_range.mp hj))).mp hsz i (Finset.mem_range.mpr hi)
        exact this
      have hst2 : ¬ st < 2 := by
        intro hlt
        have hst1 : st = 1 := by omega
        have hsp0 : sp 0 = 1 := by
          rw [hst1, Finset.sum_range_one] at hsum
          exact hsum
        have h0 : stageInts L sp 0 = 0 := hintsz 0 (by omega)
        unfold stageInts at h0
        rw [hsp0, mul_one, Int.floor_intCast] at h0
        omega
      rw [if_neg hst2]
      have hexnz : ∃ c, c < st ∧ sp c ≠ 0 := by
        by_contra hc
        push_neg at hc
        have : ∑ i in Finset.range st, sp i = 0 :=
          Finset.sum_eq_zero (fun i hi => hc i (Finset.mem_range.mp hi))
        rw [this] at hsum
        exact absurd hsum (by norm_num)
      obtain ⟨c, hc, hcnz⟩ := hexnz
      by_cases hmm : findMinIdx sp st = findMaxIdx sp st
      · exfalso
        have honez : ∀ i < st, ∀ j < st, sp i ≠ 0 → sp j ≠ 0 → i = j := by
          intro i hi j hj hni hnj
          by_contra hne
          exact findMin_ne_findMax sp st hst hi hj hne hni hnj hmm
        have hspc : sp c = 1 := by
          have hsingle : ∑ i in Finset.range st, sp i = sp c :=
            Finset.sum_eq_single_of_mem c (Finset.mem_range.mpr hc)
              (fun b hb hbc => by
                by_contra hbnz
                exact hbc (honez b (Finset.mem_range.mp hb) c hc hbnz hcnz))
          rw [hsingle] at hsum
          exact hsum
        obtain ⟨hmxlt, hMax, _⟩ := findMaxIdx_spec sp st hst
        have h1 : (1 : ℚ) ≤ sp (findMaxIdx sp st) := hspc ▸ hMax c hc
        have h2 : stageInts L sp (findMaxIdx sp st) = 0 := hintsz _ hmxlt
        unfold stageInts at h2
        have h3 : (1 : ℚ) ≤ (L : ℚ) * sp (findMaxIdx sp st) := by
          have hL1 : (1 : ℚ) ≤ (L : ℚ) := by exact_mod_cast hL
          nlinarith
        have h4 : (1 : ℤ) ≤ ⌊(L : ℚ) * sp (findMaxIdx sp st)⌋ := by
          rw [Int.le_floor]
          exact_mod_cast h3
        omega
      · rw [if_neg hmm]
        obtain ⟨hmxlt, hMax, _⟩ := findMaxIdx_spec sp st hst
        obtain ⟨hmnlt, hAllZ, _, _⟩ := findMinIdx_spec sp st hst
        have hmn_nz : sp (findMinIdx sp st) ≠ 0 := by
          intro hz
          exact hcnz (hAllZ hz c hc)
        have hmn_pos : 0 < sp (findMinIdx sp st) :=
          lt_of_le_of_ne (hsp _ hmnlt) (Ne.symm hmn_nz)
        have hmx_pos : 0 < sp (findMaxIdx sp st) :=
          lt_of_lt_of_le hmn_pos (hMax _ hmnlt)
        have hsp' : ∀ i < st, 0 ≤ redistributeSp sp st i := by
          intro i hi
          unfold redistributeSp
          by_cases h1 : i = findMinIdx sp st
          · rw [if_pos h1]
          · rw [if_neg h1]
            by_cases h2 : i = findMaxIdx sp st
            · rw [if_pos h2]
              positivity
            · rw [if_neg h2]
              exact hsp i hi
        have hsum' : (∑ i in Finset.range st, redistributeSp sp st i) = 1 := by
          have hpt : ∀ k ∈ Finset.range st, redistributeSp sp st k
              = Function.update (Function.update sp (findMaxIdx sp st)
                  (sp (findMaxIdx sp st) + sp (findMinIdx sp st))) (findMinIdx sp st) 0 k := by
            intro k _
            unfold redistributeSp
            by_cases h1 : k = findMinIdx sp st
            · rw [if_pos h1, h1, Function.update_same]
            · rw [if_neg h1, Function.update_noteq h1]
              by_cases h2 : k = findMaxIdx sp st
              · rw [if_pos h2, h2, Function.update_same]
              · rw [if_neg h2, Function.update_noteq h2]
          rw [Finset.sum_congr rfl hpt,
            sum_update_two sp st (findMinIdx sp st) (findMaxIdx sp st) hmnlt hmxlt hmm 0
              (sp (findMaxIdx sp st) + sp (findMinIdx sp st)), hsum]
          ring
        have hcard' : ((Finset.range st).filter (fun i => redistributeSp sp st i ≠ 0)).card ≤ f := by
          have hsub : (Finset.range st).filter (fun i => redistributeSp sp st i ≠ 0)
              ⊆ ((Finset.range st).filter (fun i => sp i ≠ 0)).erase (findMinIdx sp st) := by
            intro i hi
            obtain ⟨hir, hinz⟩ := Finset.mem_filter.mp hi
            have hine : i ≠ findMinIdx sp st := by
              intro h
              apply hinz
              unfold redistributeSp
              rw [if_pos h]
            refine Finset.mem_erase.mpr ⟨hine, Finset.mem_filter.mpr ⟨hir, ?_⟩⟩
            by_cases h2 : i = findMaxIdx sp st
            · rw [h2]
              exact ne_of_gt hmx_pos
            · intro hz
              apply hinz
              unfold redistributeSp
              rw [if_neg hine, if_neg h2]
              exact hz
          have hmem : findMinIdx sp st ∈ (Finset.range st).filter (fun i => sp i ≠ 0) :=
            Finset.mem_filter.mpr ⟨Finset.mem_range.mpr hmnlt, hmn_nz⟩
          have h1 := Finset.card_le_card hsub
          rw [Finset.card_erase_of_mem hmem] at h1
          have h2 : 1 ≤ ((Finset.range st).filter (fun i => sp i ≠ 0)).card :=
            Finset.card_pos.mpr ⟨findMinIdx sp st, hmem⟩
          omega
        obtain ⟨sp1, rems, reqs1, assigned, heq, hpos, hle, hrnn, hrsum, hrmono, hrdiff⟩ :=
          ih (redistributeSp sp st) (bumpReqs st L sp reqs) hsp' hsum' hcard'
        have hbump : bumpReqs st L sp reqs = reqs := by
          funext i
          unfold bumpReqs
          by_cases hi : i < st
          · rw [if_pos hi, hintsz i hi, add_zero]
          · rw [if_neg hi]
        rw [hbump] at hrmono hrdiff
        exact ⟨sp1, rems, reqs1, assigned, heq, hpos, hle, hrnn, hrsum, hrmono, hrdiff⟩

/-- The CPU distribution loop succeeds with fuel exceeding `cpus_left` (each
round hands out at least one CPU), all asserts pass, and it adds exactly `L`
to the total requirements without decreasing any entry. -/
theorem outerLoop_spec (st : ℕ) (hst : 1 ≤ st) :
    ∀ (fuel : ℕ) (L : ℤ) (sp : ℕ → ℚ) (reqs : ℕ → ℤ),
      0 ≤ L → L < (fuel : ℤ) →
      (0 < L → (∀ i < st, 0 ≤ sp i) ∧ (∑ i in Finset.range st, sp i) = 1) →
      ∃ reqs', outerLoop st sp reqs L fuel = some reqs'
        ∧ (∀ i < st, reqs i ≤ reqs' i)
        ∧ (∑ i in Finset.range st, reqs' i) = (∑ i in Finset.range st, reqs i) + L := by
  intro fuel
  induction fuel with
  | zero =>
    intro L sp reqs h0 hf _
    exfalso
    simp at hf
    omega
  | succ f ih =>
    intro L sp reqs h0 hf hsp
    simp only [outerLoop]
    by_cases hL : 0 < L
    · rw [if_pos hL]
      obtain ⟨hnn, hs1⟩ := hsp hL
      obtain ⟨sp1, rems, reqs1, assigned, heq, hpos, hle, hrnn, hrsum, hrmono, hrdiff⟩ :=
        innerLoop_spec st hst L (by omega) (st + 1) sp reqs hnn hs1
          (le_trans (Finset.card_filter_le _ _) (by rw [Finset.card_range]; omega))
      rw [heq]
      dsimp only
      rw [if_pos ⟨hpos, hle⟩]
      have hrec := ih (L - assigned)
        (fun i => if i < st then rems i / (∑ j in Finset.range st, rems j) else sp1 i)
        reqs1 (by omega) (by push_cast at hf; omega) ?_
      · obtain ⟨reqs', hre, hmono, hsum'⟩ := hrec
        refine ⟨reqs', hre, ?_, ?_⟩
        · intro i hi
          exact le_trans (hrmono i hi) (hmono i hi)
        · rw [hsum']
          have hd : (∑ i in Finset.range st, reqs1 i)
              = (∑ i in Finset.range st, reqs i) + assigned := by
            rw [Finset.sum_sub_distrib] at hrdiff
            omega
          rw [hd]
          ring
      · intro hL'
        have htotpos : (0 : ℚ) < ∑ j in Finset.range st, rems j := by
          rw [hrsum]
          have : ((L - assigned : ℤ) : ℚ) > 0 := by exact_mod_cast hL'
          push_cast at this ⊢
          linarith
        constructor
        · intro i hi
          simp only
          rw [if_pos hi]
          exact div_nonneg (hrnn i hi) (le_of_lt htotpos)
        · have hpt : ∀ i ∈ Finset.range st,
              (fun i => if i < st then rems i / ∑ j in Finset.range st, rems j else sp1 i) i
                = rems i / ∑ j in Finset.range st, rems j := by
            intro i hi
            simp only
            rw [if_pos (Finset.mem_range.mp hi)]
          rw [Finset.sum_congr rfl hpt, ← Finset.sum_div]
          exact div_self (ne_of_gt htotpos)
    · rw [if_neg hL]
      have hL0 : L = 0 := by omega
      rw [if_pos hL0]
      exact ⟨reqs, rfl, fun i _ => le_refl _, by rw [hL0]; ring⟩

/-- C3: for any CPU count `n ≥ 1`, stage count between 1 and `n`, and
smoothed per-stage loads that are nonnegative with positive total, phase 1 of
`stage::update_assignment` terminates (with every assert passing) and
produces requirements that are nonnegative and sum to exactly `n`. -/
theorem update_assignment_phase1_conserves (ncpus st : ℕ) (sizes : ℕ → ℤ)
    (prev : ℕ → ℚ) (_hn : 1 ≤ ncpus) (hst : 1 ≤ st) (_hstn : st ≤ ncpus)
    (hsm : ∀ i < st, 0 ≤ smoothedLoads sizes prev i)
    (htotal : 0 < ∑ i in Finset.range st, smoothedLoads sizes prev i) :
    ∃ reqs, updateAssignmentPhase1 ncpus st sizes prev = some reqs
      ∧ (∀ i < st, 0 ≤ reqs i)
      ∧ (∑ i in Finset.range st, reqs i) = ncpus := by
  unfold updateAssignmentPhase1
  rw [if_neg (not_le_of_lt htotal)]
  have hsum1 : (∑ i in Finset.range st,
      (if i < st
        then smoothedLoads sizes prev i / ∑ j in Finset.range st, smoothedLoads sizes prev j
        else 0)) = 1 := by
    rw [Finset.sum_congr rfl (fun i hi => if_pos (Finset.mem_range.mp hi)),
      ← Finset.sum_div]
    exact div_self (ne_of_gt htotal)
  rw [if_pos (by rw [hsum1]; norm_num)]
  have hspnn : ∀ i < st,
      (0:ℚ) ≤ (fun i => if i < st
        then smoothedLoads sizes prev i / ∑ j in Finset.range st, smoothedLoads sizes prev j
        else 0) i := by
    intro i hi
    simp only
    rw [if_pos hi]
    exact div_nonneg (hsm i hi) (le_of_lt htotal)
  obtain ⟨reqs', hrun, hmono, hsum'⟩ :=
    outerLoop_spec st hst (ncpus + 1) ncpus
      (fun i => if i < st
        then smoothedLoads sizes prev i / ∑ j in Finset.range st, smoothedLoads sizes prev j
        else 0)
      (fun _ => 0) (by exact_mod_cast Nat.zero_le ncpus) (by push_cast; omega)
      (fun _ => ⟨hspnn, hsum1⟩)
  refine ⟨reqs', hrun, ?_, ?_⟩
  · intro i hi
    exact hmono i hi
  · rw [hsum']
    simp

/-- Witness: `update_assignment_phase1_conserves` at 2 CPUs and 2 stages with
equal loads 10 and a zero smoothing history: both stages get one CPU. -/
theorem update_assignment_phase1_conserves_witness :
    (0:ℚ) < (∑ i in Finset.range 2, smoothedLoads (fun _ => 10) (fun _ => 0) i)
    ∧ ∃ reqs, updateAssignmentPhase1 2 2 (fun _ => 10) (fun _ => 0) = some reqs
        ∧ (∀ i < 2, 0 ≤ reqs i)
        ∧ (∑ i in Finset.range 2, reqs i) = 2 := by
  refine ⟨?_, ?_⟩
  · rw [Finset.sum_range_succ, Finset.sum_range_one]
    unfold smoothedLoads
    norm_num
  · refine update_assignment_phase1_conserves 2 2 (fun _ => 10) (fun _ => 0)
      (by norm_num) (by norm_num) (by norm_num) ?_ ?_
    · intro i _
      unfold smoothedLoads
      norm_num
    · rw [Finset.sum_range_succ, Finset.sum_range_one]
      unfold smoothedLoads
      norm_num

end OsvSched
